import Mathlib

/-!
# Interval tree (`IntervalTree.h`): shallow embedding and verified properties

The key type `K` of the C++ templates is taken to be the mathematical integers
(`K = int` is the template default; the code only compares and copies keys, it never
does arithmetic on them).  The payload type `T` stays generic.

Pointers `IntervalTree*` are modelled by the tree type itself, with the constructor
`IntervalTree.null` standing for `NULL`.  The `parent` back pointer is written by the
constructors and read by no member function, so it is not part of the model.

`unsigned int` and `size_t` values are natural numbers with explicit wrap-around
where the source subtracts or increments them.
-/

namespace IntervalTreeH

/-! ## Data model -/

/-- An interval `Interval<T, K>` with `K = int`: the fields `start`, `stop`, `value`. -/
structure Interval (T : Type) where
  start : Int
  stop : Int
  value : T
deriving DecidableEq

/-- The functor `IntervalStartSorter`: `a.start < b.start`. -/
def IntervalStartSorter {T : Type} (a b : Interval T) : Prop := a.start < b.start

instance {T : Type} (a b : Interval T) : Decidable (IntervalStartSorter a b) :=
  inferInstanceAs (Decidable (a.start < b.start))

/-- The contract of `std::sort(first, last, IntervalStartSorter)`: the result is a
rearrangement of the input in which no later element compares less than an earlier one.
The order among intervals with equal `start` is left open, as in the C++ standard. -/
def IsStartSort {T : Type} (srt : List (Interval T) → List (Interval T)) : Prop :=
  ∀ l, (srt l).Perm l ∧ (srt l).Pairwise (fun a b => ¬ IntervalStartSorter b a)

/-- One admissible implementation of the sort: insertion sort on `start`. -/
def sortByStart {T : Type} (l : List (Interval T)) : List (Interval T) :=
  l.insertionSort (fun a b => a.start ≤ b.start)

/-- A pointer to an `IntervalTree<T, K>` object: `null` is `NULL`, `node` is an object
with its fields `intervals`, `left`, `right`, `center`. -/
inductive IntervalTree (T : Type) where
  | null : IntervalTree T
  | node (intervals : List (Interval T)) (left right : IntervalTree T) (center : Int) :
      IntervalTree T
deriving DecidableEq

namespace IntervalTree

variable {T : Type}

/-- The pointer test `p == NULL`. -/
def isNull : IntervalTree T → Bool
  | null => true
  | node _ _ _ _ => false

/-- The value `2^32`, modulus of `unsigned int`. -/
def UINT_MOD : Nat := 4294967296

/-- The value `2^64`, modulus of `size_t`. -/
def SIZE_MOD : Nat := 18446744073709551616

/-- The `size_t` value of `intervals.size() - 1` for a vector of size `n < 2^64`: the
difference modulo `2^64`, so that `0 - 1` wraps around to `2^64 - 1`
(see `sizePred_eq_mod`). -/
def sizePred (n : Nat) : Nat := if n = 0 then SIZE_MOD - 1 else n - 1

/-- The value `*max_element(stops.begin(), stops.end())` for the vector of the `stop`
fields of a vector whose first element is `front`. -/
def maxStop (front : Interval T) (rest : List (Interval T)) : Int :=
  rest.foldl (fun m i => if m < i.stop then i.stop else m) front.stop

/-- The partition loop of the constructor (lines 157-166): one pass over `ivals`,
appending each interval to `lefts`, to `rights` or to the node's own `intervals`.
The state is the triple `(lefts, rights, intervals)`. -/
def splitLoop (center : Int) (ivals : List (Interval T)) :
    List (Interval T) × List (Interval T) × List (Interval T) :=
  ivals.foldl
    (fun (acc : List (Interval T) × List (Interval T) × List (Interval T)) interval =>
      if interval.stop < center then (acc.1 ++ [interval], acc.2.1, acc.2.2)
      else if interval.start > center then (acc.1, acc.2.1 ++ [interval], acc.2.2)
      else (acc.1, acc.2.1, acc.2.2 ++ [interval]))
    ([], [], [])

/-- The body of the constructor `IntervalTree(ivals, parent, depth, minbucket, leftextent,
rightextent, maxbucket)` after its first statement `--depth`; the first argument is the
value of `depth` after that decrement.  When that value is `d + 1`, the children are
constructed with `depth = d + 1`, decrement it themselves, and so run this body at `d`
(see `ctor_succ`).

* `depth == 0 || (size < minbucket && size < maxbucket)`: the node keeps `ivals` as they
  are (`center` is not assigned on this path and no member function reads it while both
  children are `NULL`; the model stores `0`).
* otherwise the vector is sorted when both extents are `0`, `center` is the `start` of
  the element at index `size / 2`, and the children are built from `lefts` and `rights`
  with the calls `new intervalTree(lefts, this, depth, minbucket, leftp, centerp)` and
  `new intervalTree(rights, this, depth, minbucket, centerp, rightp)`: `maxbucket` is
  not passed and takes its default `512`; the callee decrements `depth` again.

`ivals.front()` and `ivals.at(ivals.size() / 2)` on an empty vector are an undefined read
and a thrown `std::out_of_range`: the result is `none`. -/
def ctorBody (srt : List (Interval T) → List (Interval T)) :
    Nat → List (Interval T) → Nat → Int → Int → Nat → Option (IntervalTree T)
  | 0, ivals, _, _, _, _ => some (node ivals null null 0)
  | d + 1, ivals, minbucket, leftextent, rightextent, maxbucket =>
    if ivals.length < minbucket ∧ ivals.length < maxbucket then
      some (node ivals null null 0)
    else
      let ivals := if leftextent = 0 ∧ rightextent = 0 then srt ivals else ivals
      match ivals, ivals[ivals.length / 2]? with
      | front :: rest, some mid =>
        let leftp := if leftextent ≠ 0 ∨ rightextent ≠ 0 then leftextent else front.start
        let rightp :=
          if leftextent ≠ 0 ∨ rightextent ≠ 0 then rightextent else maxStop front rest
        let centerp := mid.start
        let parts := splitLoop centerp ivals
        let lefts := parts.1
        let rights := parts.2.1
        let bucket := parts.2.2
        let left :=
          if lefts.isEmpty then some null
          else ctorBody srt d lefts minbucket leftp centerp 512
        let right :=
          if rights.isEmpty then some null
          else ctorBody srt d rights minbucket centerp rightp 512
        match left, right with
        | some l, some r => some (node bucket l r centerp)
        | _, _ => none
      | _, _ => none

/-- The constructor `IntervalTree(ivals, parent, depth, minbucket, leftextent, rightextent,
maxbucket)`: `--depth` on an `unsigned int` (so `0` becomes `2^32 - 1`), then the body. -/
def ctor (srt : List (Interval T) → List (Interval T)) (ivals : List (Interval T))
    (depth minbucket : Nat) (leftextent rightextent : Int) (maxbucket : Nat) :
    Option (IntervalTree T) :=
  ctorBody srt ((depth + UINT_MOD - 1) % UINT_MOD) ivals minbucket leftextent rightextent
    maxbucket

/-- The constructor called with its default arguments: `depth = 16`, `minbucket = 64`,
`leftextent = 0`, `rightextent = 0`, `maxbucket = 512`. -/
def ctorDefault (srt : List (Interval T) → List (Interval T)) (ivals : List (Interval T)) :
    Option (IntervalTree T) :=
  ctor srt ivals 16 64 0 0 512

/-- The bucket scan of `findOverlapping` (lines 178-185). -/
def scanOverlapping (intervals : List (Interval T)) (start stop : Int)
    (overlapping : List (Interval T)) : List (Interval T) :=
  match intervals with
  | [] => overlapping
  | front :: _ =>
    if ¬ (stop < front.start) then
      intervals.foldl
        (fun acc interval =>
          if interval.stop ≥ start ∧ interval.start ≤ stop then acc ++ [interval] else acc)
        overlapping
    else overlapping

/-- The member `findOverlapping(start, stop, overlapping)`; the vector `overlapping` is
passed in and returned. -/
def findOverlapping : IntervalTree T → Int → Int → List (Interval T) → List (Interval T)
  | null, _, _, overlapping => overlapping
  | node intervals left right center, start, stop, overlapping =>
    let overlapping := scanOverlapping intervals start stop overlapping
    let overlapping :=
      if left.isNull = false ∧ start ≤ center then findOverlapping left start stop overlapping
      else overlapping
    if right.isNull = false ∧ stop ≥ center then findOverlapping right start stop overlapping
    else overlapping

/-- The bucket scan of `findContained` (lines 198-205). -/
def scanContained (intervals : List (Interval T)) (start stop : Int)
    (contained : List (Interval T)) : List (Interval T) :=
  match intervals with
  | [] => contained
  | front :: _ =>
    if ¬ (stop < front.start) then
      intervals.foldl
        (fun acc interval =>
          if interval.start ≥ start ∧ interval.stop ≤ stop then acc ++ [interval] else acc)
        contained
    else contained

/-- The member `findContained(start, stop, contained)`. -/
def findContained : IntervalTree T → Int → Int → List (Interval T) → List (Interval T)
  | null, _, _, contained => contained
  | node intervals left right center, start, stop, contained =>
    let contained := scanContained intervals start stop contained
    let contained :=
      if left.isNull = false ∧ start ≤ center then findContained left start stop contained
      else contained
    if right.isNull = false ∧ stop ≥ center then findContained right start stop contained
    else contained

/-- The copy made by the copy constructor and by `operator=`: `center` and `intervals`
are copied, and each non-`NULL` child is copied into a fresh node by `operator=`. -/
def copy : IntervalTree T → IntervalTree T
  | null => null
  | node intervals left right center =>
    node intervals
      (if left.isNull = false then copy left else null)
      (if right.isNull = false then copy right else null)
      center

end IntervalTree

/-! ## The lazy cursor `IntervalTreeView` -/

deriving instance DecidableEq for Except

/-- The ways in which a member of `IntervalTreeView` can fail to return normally.
`fuelExhausted` belongs to the model only: the loops of the view are run with an
iteration budget, and the budget computed by the model is shown never to run out. -/
inductive ViewFault where
  | noMoreElements
  | outOfBounds
  | fuelExhausted
deriving DecidableEq

/-- The object `IntervalTreeView<T, K>`.  The vector `toAnalize` is held as a list from
its back to its front: `push_back` is `cons`, `back()` is the head. -/
structure IntervalTreeView (T : Type) where
  start : Int
  stop : Int
  toAnalize : List (IntervalTree T)
  currentTree : IntervalTree T
  currentIndex : Nat
deriving DecidableEq

namespace IntervalTree

variable {T : Type}

/-- Number of nodes plus number of stored intervals below a pointer; it bounds the
number of iterations of the loops of `move_next`. -/
def weight : IntervalTree T → Nat
  | null => 0
  | node intervals left right _ => 1 + intervals.length + weight left + weight right

end IntervalTree

namespace IntervalTreeView

open IntervalTree

variable {T : Type}

/-- The constructor `IntervalTreeView(tree, start, stop)`: after the body has run,
`currentTree = tree` and `currentIndex = 0`, with an empty `toAnalize`. -/
def ctor (tree : IntervalTree T) (start stop : Int) : IntervalTreeView T :=
  { start := start, stop := stop, toAnalize := [], currentTree := tree, currentIndex := 0 }

/-- The member `at_end()`: `currentTree == NULL`. -/
def at_end (v : IntervalTreeView T) : Bool := v.currentTree.isNull

/-- The member `get_interval()`: the element `currentTree->intervals[currentIndex]`, or
`none` when there is no such element (a `NULL` tree or an index past the end). -/
def get_interval (v : IntervalTreeView T) : Option (Interval T) :=
  match v.currentTree with
  | null => none
  | node intervals _ _ _ => intervals[v.currentIndex]?

/-- The member `get_element()`: the payload of `get_interval()`. -/
def get_element (v : IntervalTreeView T) : Option T :=
  v.get_interval.map (fun i => i.value)

/-- The inner `do ... while` of `move_next` (lines 282-296): take pointers from the back
of `toAnalize` until it is empty (then `currentTree = NULL`, `currentIndex = -1`) or the
pointer taken is `NULL` or has a non-empty bucket (then `currentIndex = 0`).  The result
is `(currentTree, currentIndex, toAnalize)`. -/
def popLoop : List (IntervalTree T) → IntervalTree T × Nat × List (IntervalTree T)
  | [] => (null, SIZE_MOD - 1, [])
  | node [] _ _ _ :: rest => popLoop rest
  | t :: rest => (t, 0, rest)

/-- The outer `do ... while` of `move_next` (lines 270-302), entered with a non-`NULL`
`currentTree` whose fields are `intervals`, `left`, `right`, `center`.  The first argument
bounds the number of iterations.  `intervals.size() - 1` is computed in `size_t`; the
increment `currentIndex++` happens only below that value, so it cannot wrap. -/
def moveLoop : Nat → Int → Int → List (IntervalTree T) → List (Interval T) →
    IntervalTree T → IntervalTree T → Int → Nat →
    Except (ViewFault × IntervalTreeView T) (IntervalTreeView T)
  | 0, start, stop, toAnalize, intervals, left, right, center, currentIndex =>
    .error (.fuelExhausted,
      { start := start, stop := stop, toAnalize := toAnalize,
        currentTree := node intervals left right center, currentIndex := currentIndex })
  | fuel + 1, start, stop, toAnalize, intervals, left, right, center, currentIndex =>
    let next : IntervalTreeView T :=
      if currentIndex < sizePred intervals.length then
        { start := start, stop := stop, toAnalize := toAnalize,
          currentTree := node intervals left right center, currentIndex := currentIndex + 1 }
      else
        let toAnalize :=
          if left.isNull = false ∧ start ≤ center then left :: toAnalize else toAnalize
        let toAnalize :=
          if right.isNull = false ∧ stop ≥ center then right :: toAnalize else toAnalize
        let popped := popLoop toAnalize
        { start := start, stop := stop, toAnalize := popped.2.2,
          currentTree := popped.1, currentIndex := popped.2.1 }
    match next.currentTree with
    | null => .ok next
    | node intervals1 left1 right1 center1 =>
      match intervals1[next.currentIndex]? with
      | none => .error (.outOfBounds, next)
      | some interval =>
        if ¬ (stop ≥ interval.start ∧ start ≤ interval.stop) then
          moveLoop fuel start stop next.toAnalize intervals1 left1 right1 center1
            next.currentIndex
        else .ok next

/-- The iteration budget given to `moveLoop` for a view state. -/
def budget (v : IntervalTreeView T) : Nat :=
  v.currentTree.weight + (v.toAnalize.map weight).sum + 1

/-- The member `move_next()`: throws when `at_end()`, otherwise runs the loop.  A failure
carries the state of the view at the point of failure. -/
def move_next (v : IntervalTreeView T) :
    Except (ViewFault × IntervalTreeView T) (IntervalTreeView T) :=
  match v.currentTree with
  | null => .error (.noMoreElements, v)
  | node intervals left right center =>
    moveLoop v.budget v.start v.stop v.toAnalize intervals left right center v.currentIndex

/-- The read loop of a client that drains a view: while not `at_end()`, read
`get_interval()` and call `move_next()`. -/
def drainLoop : Nat → IntervalTreeView T → List (Interval T) →
    Except (ViewFault × IntervalTreeView T) (List (Interval T))
  | 0, v, _ => .error (.fuelExhausted, v)
  | fuel + 1, v, out =>
    if v.at_end then .ok out
    else
      match v.get_interval with
      | none => .error (.outOfBounds, v)
      | some interval =>
        match v.move_next with
        | .error e => .error e
        | .ok v1 => drainLoop fuel v1 (out ++ [interval])

/-- Draining a view for a query: construct it, advance once with `move_next()`, then
run the read loop until `at_end()`. -/
def drain (tree : IntervalTree T) (start stop : Int) :
    Except (ViewFault × IntervalTreeView T) (List (Interval T)) :=
  match (ctor tree start stop).move_next with
  | .error e => .error e
  | .ok v => drainLoop (tree.weight + 1) v []

/-- The view states reachable from the construction of a view on `tree` for the query
`[start, stop]` by calls of `move_next()` that return normally. -/
inductive Reachable (tree : IntervalTree T) (start stop : Int) : IntervalTreeView T → Prop
  | init : Reachable tree start stop (ctor tree start stop)
  | next {v v1 : IntervalTreeView T} :
      Reachable tree start stop v → v.move_next = .ok v1 → Reachable tree start stop v1

end IntervalTreeView

/-! ## Auxiliary definitions used in the statements -/

namespace IntervalTree

variable {T : Type}

/-- The intervals sent to the left child by the partition loop, as a filter. -/
def lefts (center : Int) (ivals : List (Interval T)) : List (Interval T) :=
  ivals.filter (fun i => i.stop < center)

/-- The intervals sent to the right child by the partition loop, as a filter. -/
def rights (center : Int) (ivals : List (Interval T)) : List (Interval T) :=
  ivals.filter (fun i => ¬ i.stop < center ∧ i.start > center)

/-- The intervals kept in the node by the partition loop, as a filter. -/
def bucket (center : Int) (ivals : List (Interval T)) : List (Interval T) :=
  ivals.filter (fun i => ¬ i.stop < center ∧ ¬ i.start > center)

/-- The test of line 127 that makes a node keep its whole input, on the value of `depth`
after the decrement and the size of the input. -/
def keepsInput (depthAfter n minbucket maxbucket : Nat) : Prop :=
  depthAfter = 0 ∨ (n < minbucket ∧ n < maxbucket)

instance (depthAfter n minbucket maxbucket : Nat) :
    Decidable (keepsInput depthAfter n minbucket maxbucket) :=
  inferInstanceAs (Decidable (depthAfter = 0 ∨ (n < minbucket ∧ n < maxbucket)))

/-- A list of intervals in non-decreasing order of `start`. -/
def StartSorted (l : List (Interval T)) : Prop :=
  l.Pairwise (fun a b => a.start ≤ b.start)

instance (l : List (Interval T)) : Decidable (StartSorted l) :=
  inferInstanceAs (Decidable (l.Pairwise (fun a b : Interval T => a.start ≤ b.start)))

/-- All intervals stored below a pointer, in pre-order: the bucket of the node, then the
left subtree, then the right subtree. -/
def flatten : IntervalTree T → List (Interval T)
  | null => []
  | node intervals left right _ => intervals ++ flatten left ++ flatten right

/-- Every interval stored in a left subtree ends before the center of the node above it,
and every interval stored in a right subtree starts after it. -/
def ChildRange : IntervalTree T → Prop
  | null => True
  | node _ left right center =>
    (∀ i ∈ flatten left, i.stop < center) ∧ (∀ i ∈ flatten right, i.start > center) ∧
      ChildRange left ∧ ChildRange right

/-- Every bucket of the tree is in non-decreasing order of `start`. -/
def BucketsSorted : IntervalTree T → Prop
  | null => True
  | node intervals left right _ =>
    StartSorted intervals ∧ BucketsSorted left ∧ BucketsSorted right

/-- A property of buckets holds for the bucket of every node below a pointer. -/
def AllBuckets (P : List (Interval T) → Prop) : IntervalTree T → Prop
  | null => True
  | node intervals left right _ =>
    P intervals ∧ AllBuckets P left ∧ AllBuckets P right

/-- The first element of a bucket, if there is one, has the least `start` of the bucket. -/
def FrontIsMin (b : List (Interval T)) : Prop :=
  ∀ front rest, b = front :: rest → ∀ i ∈ b, front.start ≤ i.start

/-- Number of nodes on the longest path from a pointer down to a childless node. -/
def height : IntervalTree T → Nat
  | null => 0
  | node _ left right _ => 1 + max (height left) (height right)

/-- Every node below a pointer has a non-empty bucket. -/
def FullBuckets : IntervalTree T → Prop
  | null => True
  | node intervals left right _ => intervals ≠ [] ∧ FullBuckets left ∧ FullBuckets right

/-- A property `Q intervals left right center` holds at every node below a pointer that
was built by the splitting branch of the constructor.  The node at the pointer was built
with `depth` (after the decrement) equal to `d`, with `minbucket` and `maxbucket`; its
input had as many intervals as its subtree stores; its children were built one level down
with the same `minbucket` and with `maxbucket = 512`. -/
def AtSplits (Q : List (Interval T) → IntervalTree T → IntervalTree T → Int → Prop) :
    Nat → Nat → Nat → IntervalTree T → Prop
  | _, _, _, null => True
  | d, minbucket, maxbucket, node intervals left right center =>
    (¬ keepsInput d (flatten (node intervals left right center)).length minbucket maxbucket →
      Q intervals left right center) ∧
    AtSplits Q (d - 1) minbucket 512 left ∧ AtSplits Q (d - 1) minbucket 512 right

/-- Every interval of the bucket overlaps the center. -/
def Straddles (intervals : List (Interval T)) (_left _right : IntervalTree T)
    (center : Int) : Prop :=
  ∀ i ∈ intervals, ¬ i.stop < center ∧ ¬ i.start > center

/-- The left child is absent exactly when no interval of the node's input ends before the
center, and the right child is absent exactly when no interval of the node's input that
does not end before the center starts after it. -/
def AbsentIffEmpty (intervals : List (Interval T)) (left right : IntervalTree T)
    (center : Int) : Prop :=
  (left.isNull = true ↔
    ∀ i ∈ intervals ++ flatten left ++ flatten right, ¬ i.stop < center) ∧
  (right.isNull = true ↔
    ∀ i ∈ intervals ++ flatten left ++ flatten right,
      ¬ (¬ i.stop < center ∧ i.start > center))

/-- What the constructor body achieves at a given value of `depth` after the decrement:
on a non-empty vector it returns a node that stores a rearrangement of the vector, with
the child ranges in place, and with sorted buckets whenever the vector was sorted on
entry or is sorted by this very call. -/
def CtorSpec (srt : List (Interval T) → List (Interval T)) (d : Nat) : Prop :=
  ∀ (ivals : List (Interval T)) (minbucket : Nat) (leftextent rightextent : Int)
    (maxbucket : Nat), ivals ≠ [] →
    ∃ t, ctorBody srt d ivals minbucket leftextent rightextent maxbucket = some t ∧
      t.isNull = false ∧ (flatten t).Perm ivals ∧ ChildRange t ∧
      ((StartSorted ivals ∨
          (¬ keepsInput d ivals.length minbucket maxbucket ∧
            leftextent = 0 ∧ rightextent = 0)) → BucketsSorted t)

end IntervalTree

namespace IntervalTreeView

open IntervalTree

variable {T : Type}

/-- The intervals a drain stops on inside the subtree at a pointer taken from `toAnalize`:
the entries of its bucket that pass the test of `move_next`, then those of the right
subtree if `move_next` pushes it, then those of the left subtree if it pushes it (the
right child is pushed last and therefore taken first). -/
def lazyTree (start stop : Int) : IntervalTree T → List (Interval T)
  | null => []
  | node intervals left right center =>
    intervals.filter (fun i => stop ≥ i.start ∧ start ≤ i.stop) ++
      (if right.isNull = false ∧ stop ≥ center then lazyTree start stop right else []) ++
      (if left.isNull = false ∧ start ≤ center then lazyTree start stop left else [])

/-- The intervals a drain stops on in the pointers held by `toAnalize`, back first. -/
def lazyStack (start stop : Int) : List (IntervalTree T) → List (Interval T)
  | [] => []
  | t :: rest => lazyTree start stop t ++ lazyStack start stop rest

/-- The intervals on which the coming calls of `move_next` stop, for a view whose current
node has the fields `intervals`, `left`, `right`, `center`. -/
def pending (start stop : Int) (toAnalize : List (IntervalTree T))
    (intervals : List (Interval T)) (left right : IntervalTree T) (center : Int)
    (currentIndex : Nat) : List (Interval T) :=
  (intervals.drop (currentIndex + 1)).filter (fun i => stop ≥ i.start ∧ start ≤ i.stop) ++
    (if right.isNull = false ∧ stop ≥ center then lazyTree start stop right else []) ++
    (if left.isNull = false ∧ start ≤ center then lazyTree start stop left else []) ++
    lazyStack start stop toAnalize

/-- The current interval of a view followed by the pending ones; empty at the end. -/
def remaining (v : IntervalTreeView T) : List (Interval T) :=
  match v.currentTree with
  | null => []
  | node intervals left right center =>
    match intervals[v.currentIndex]? with
    | none => []
    | some interval =>
      interval :: pending v.start v.stop v.toAnalize intervals left right center
        v.currentIndex

/-- Every pointer held by `toAnalize` is non-`NULL` and has only non-empty buckets below. -/
def StackOk (toAnalize : List (IntervalTree T)) : Prop :=
  ∀ t ∈ toAnalize, t.isNull = false ∧ FullBuckets t

/-- A view at the end, or on an in-bounds index of a node, with only non-empty buckets in
the current subtree and in the pending ones. -/
def Good (v : IntervalTreeView T) : Prop :=
  v.currentTree = null ∨
    (v.currentTree.isNull = false ∧ v.get_interval.isSome = true ∧
      FullBuckets v.currentTree ∧ StackOk v.toAnalize)

end IntervalTreeView

/-! ## Basic facts about the loops -/

namespace IntervalTree

variable {T : Type}

theorem foldl_push_filter (p : Interval T → Prop) [DecidablePred p]
    (l acc : List (Interval T)) :
    l.foldl (fun acc i => if p i then acc ++ [i] else acc) acc = acc ++ l.filter p := by
  induction l generalizing acc with
  | nil => simp
  | cons x xs ih =>
    by_cases hx : p x
    · simp [List.foldl_cons, hx, ih]
    · simp [List.foldl_cons, hx, ih]

theorem scanOverlapping_eq (intervals : List (Interval T)) (start stop : Int)
    (acc : List (Interval T)) :
    scanOverlapping intervals start stop acc =
      match intervals with
      | [] => acc
      | front :: _ =>
        if stop < front.start then acc
        else acc ++ intervals.filter (fun i => i.stop ≥ start ∧ i.start ≤ stop) := by
  cases intervals with
  | nil => rfl
  | cons front rest =>
    simp only [scanOverlapping]
    by_cases h : stop < front.start
    · simp [h]
    · rw [if_pos h, if_neg h]
      exact foldl_push_filter (fun i => i.stop ≥ start ∧ i.start ≤ stop) _ _

theorem scanContained_eq (intervals : List (Interval T)) (start stop : Int)
    (acc : List (Interval T)) :
    scanContained intervals start stop acc =
      match intervals with
      | [] => acc
      | front :: _ =>
        if stop < front.start then acc
        else acc ++ intervals.filter (fun i => i.start ≥ start ∧ i.stop ≤ stop) := by
  cases intervals with
  | nil => rfl
  | cons front rest =>
    simp only [scanContained]
    by_cases h : stop < front.start
    · simp [h]
    · rw [if_pos h, if_neg h]
      exact foldl_push_filter (fun i => i.start ≥ start ∧ i.stop ≤ stop) _ _

theorem splitLoop_foldl (center : Int) (ivals : List (Interval T))
    (acc : List (Interval T) × List (Interval T) × List (Interval T)) :
    ivals.foldl
      (fun (acc : List (Interval T) × List (Interval T) × List (Interval T)) interval =>
        if interval.stop < center then (acc.1 ++ [interval], acc.2.1, acc.2.2)
        else if interval.start > center then (acc.1, acc.2.1 ++ [interval], acc.2.2)
        else (acc.1, acc.2.1, acc.2.2 ++ [interval]))
      acc =
    (acc.1 ++ lefts center ivals, acc.2.1 ++ rights center ivals,
      acc.2.2 ++ bucket center ivals) := by
  induction ivals generalizing acc with
  | nil => simp [lefts, rights, bucket]
  | cons x xs ih =>
    rw [List.foldl_cons, ih]
    by_cases h1 : x.stop < center
    · simp [lefts, rights, bucket, h1]
    · have h1' : center ≤ x.stop := not_lt.mp h1
      by_cases h2 : x.start > center
      · have h2' : ¬ x.start ≤ center := not_le.mpr h2
        simp [lefts, rights, bucket, h1, h2, h1', h2', List.filter_cons]
      · have h2' : x.start ≤ center := not_lt.mp h2
        simp [lefts, rights, bucket, h1, h2, h1', h2', List.filter_cons]

theorem splitLoop_eq (center : Int) (ivals : List (Interval T)) :
    splitLoop center ivals = (lefts center ivals, rights center ivals, bucket center ivals) := by
  unfold splitLoop
  rw [splitLoop_foldl]
  simp

end IntervalTree

/-! ## Concrete scenarios -/

open IntervalTree in
/-- C4: with the default arguments, the tree built from `[(1,5,"a"), (6,10,"b"), (3,8,"c")]`
answers `findOverlapping(4,7)` with the three intervals, `findContained(0,20)` with the
three intervals, and `findOverlapping(11,20)` with nothing, whatever sort routine is
linked in. -/
theorem scenario_abc (srt : List (Interval String) → List (Interval String)) :
    ∃ t, ctorDefault srt [⟨1, 5, "a"⟩, ⟨6, 10, "b"⟩, ⟨3, 8, "c"⟩] = some t ∧
      t.findOverlapping 4 7 [] = [⟨1, 5, "a"⟩, ⟨6, 10, "b"⟩, ⟨3, 8, "c"⟩] ∧
      t.findContained 0 20 [] = [⟨1, 5, "a"⟩, ⟨6, 10, "b"⟩, ⟨3, 8, "c"⟩] ∧
      t.findOverlapping 11 20 [] = [] :=
  ⟨_, rfl, by decide, by decide, by decide⟩

open IntervalTree in
/-- C1: on the unsorted input `[(6,10,"b"), (1,5,"a")]` with the default arguments the
constructor keeps the vector as it is, and `findOverlapping(2,3)` returns nothing although
`(1,5,"a")` is an input interval with `stop >= 2` and `start <= 3`. -/
theorem findOverlapping_unsorted_leaf :
    ∃ t, ctorDefault sortByStart [⟨6, 10, "b"⟩, ⟨1, 5, "a"⟩] = some t ∧
      t.findOverlapping 2 3 [] = [] ∧
      [⟨6, 10, "b"⟩, ⟨1, 5, "a"⟩].filter
        (fun i : Interval String => i.stop ≥ 2 ∧ i.start ≤ 3) = [⟨1, 5, "a"⟩] :=
  ⟨_, rfl, by decide, by decide⟩

open IntervalTree in
/-- C3: for the tree built from `[(1,5,"a")]` with the default arguments and the query
`[1,5]`, draining a view yields nothing while `findOverlapping` yields the interval. -/
theorem drain_skips_first :
    ∃ t, ctorDefault sortByStart [⟨1, 5, "a"⟩] = some t ∧
      IntervalTreeView.drain t 1 5 = .ok [] ∧
      t.findOverlapping 1 5 [] = [⟨1, 5, "a"⟩] :=
  ⟨_, rfl, by decide, by decide⟩

open IntervalTree in
/-- C5: for the empty vector with `minbucket = 0` (the other arguments at their default
values) the constructor takes the splitting branch and fails on
`ivals.at(ivals.size() / 2)`; with the default arguments it yields the childless node with
an empty bucket. -/
theorem ctor_empty_minbucket_zero :
    ctor sortByStart ([] : List (Interval String)) 16 0 0 0 512 = none ∧
    ctorDefault sortByStart ([] : List (Interval String)) = some (node [] null null 0) :=
  ⟨by decide, by decide⟩

open IntervalTree IntervalTreeView in
/-- C6: the view constructed on the tree built from the empty vector is a reachable state
that is not `at_end`, yet its `currentIndex` `0` is no index of the empty bucket; and
`move_next` then moves to index `1` of the empty bucket and reads there. -/
theorem view_on_empty_tree :
    ∃ t, ctorDefault sortByStart ([] : List (Interval String)) = some t ∧
      ∃ v, Reachable t 4 7 v ∧ v.at_end = false ∧ v.get_interval = none ∧
        v.move_next =
          .error (.outOfBounds, IntervalTreeView.mk 4 7 [] t 1) :=
  ⟨_, rfl, _, Reachable.init, by decide, by decide, by decide⟩

/-! ## Single interval, copy, exhausted cursor -/

theorem IsStartSort.singleton {T : Type} {srt : List (Interval T) → List (Interval T)}
    (h : IsStartSort srt) (i : Interval T) : srt [i] = [i] :=
  List.perm_singleton.mp (h [i]).1

theorem sortByStart_isStartSort {T : Type} :
    IsStartSort (sortByStart : List (Interval T) → List (Interval T)) := by
  intro l
  refine ⟨List.perm_insertionSort _ l, ?_⟩
  haveI : IsTotal (Interval T) (fun a b => a.start ≤ b.start) :=
    ⟨fun a b => le_total a.start b.start⟩
  haveI : IsTrans (Interval T) (fun a b => a.start ≤ b.start) :=
    ⟨fun _ _ _ hab hbc => le_trans hab hbc⟩
  have hs : List.Pairwise (fun a b : Interval T => a.start ≤ b.start) (sortByStart l) :=
    List.sorted_insertionSort (fun a b : Interval T => a.start ≤ b.start) l
  exact hs.imp (fun hab => not_lt.mpr hab)

namespace IntervalTree

variable {T : Type}

theorem ctorBody_single (srt : List (Interval T) → List (Interval T)) (hsrt : IsStartSort srt)
    (s e : Int) (v : T) (hse : s ≤ e) (d minbucket : Nat) (leftextent rightextent : Int)
    (maxbucket : Nat) :
    ctorBody srt d [⟨s, e, v⟩] minbucket leftextent rightextent maxbucket =
        some (node [⟨s, e, v⟩] null null 0) ∨
      ctorBody srt d [⟨s, e, v⟩] minbucket leftextent rightextent maxbucket =
        some (node [⟨s, e, v⟩] null null s) := by
  cases d with
  | zero => left; rfl
  | succ d =>
    by_cases hleaf : [(⟨s, e, v⟩ : Interval T)].length < minbucket ∧
        [(⟨s, e, v⟩ : Interval T)].length < maxbucket
    · left
      simp only [ctorBody, if_pos hleaf]
    · right
      have hes : ¬ e < s := not_lt.mpr hse
      simp only [ctorBody, if_neg hleaf, hsrt.singleton, ite_self, splitLoop_eq, lefts,
        rights, bucket]
      simp [hes, hse]

/-- C9: for an interval `(s, e, v)` with `s <= e`, whatever the arguments of the
constructor, the tree built from the one-element vector is built without failure and
`findOverlapping(s, e)` returns exactly that interval. -/
theorem single_interval (srt : List (Interval T) → List (Interval T)) (hsrt : IsStartSort srt)
    (s e : Int) (v : T) (hse : s ≤ e) (depth minbucket : Nat) (leftextent rightextent : Int)
    (maxbucket : Nat) :
    ∃ t, ctor srt [⟨s, e, v⟩] depth minbucket leftextent rightextent maxbucket = some t ∧
      t.findOverlapping s e [] = [⟨s, e, v⟩] := by
  have hes : ¬ e < s := not_lt.mpr hse
  rcases ctorBody_single srt hsrt s e v hse ((depth + UINT_MOD - 1) % UINT_MOD) minbucket
      leftextent rightextent maxbucket with h | h
  · exact ⟨_, h, by simp [findOverlapping, scanOverlapping_eq, isNull, hes, hse]⟩
  · exact ⟨_, h, by simp [findOverlapping, scanOverlapping_eq, isNull, hes, hse]⟩

theorem single_interval_witness :
    IsStartSort (sortByStart : List (Interval String) → List (Interval String)) ∧
    (3 : Int) ≤ 8 ∧
    ∃ t, ctor sortByStart [(⟨3, 8, "c"⟩ : Interval String)] 0 0 0 0 0 = some t ∧
      t.findOverlapping 3 8 [] = [⟨3, 8, "c"⟩] :=
  ⟨sortByStart_isStartSort, by decide,
    single_interval sortByStart sortByStart_isStartSort 3 8 "c" (by decide) 0 0 0 0 0⟩

theorem copy_eq (t : IntervalTree T) : t.copy = t := by
  induction t with
  | null => rfl
  | node intervals left right center ihl ihr =>
    have hl : (if left.isNull = false then left.copy else null) = left := by
      cases left with
      | null => rfl
      | node _ _ _ _ => simpa [isNull] using ihl
    have hr : (if right.isNull = false then right.copy else null) = right := by
      cases right with
      | null => rfl
      | node _ _ _ _ => simpa [isNull] using ihr
    simp only [copy, hl, hr]

/-- C10: the copy made by the copy constructor or by assignment is equal to the original
as a tree (same bucket and `center` at every node, children at the same positions), so
`findOverlapping` and `findContained` return on it the same sequence as on the original. -/
theorem copy_preserves (t : IntervalTree T) :
    t.copy = t ∧
    (∀ start stop acc, t.copy.findOverlapping start stop acc =
        t.findOverlapping start stop acc) ∧
    (∀ start stop acc, t.copy.findContained start stop acc =
        t.findContained start stop acc) := by
  refine ⟨copy_eq t, ?_, ?_⟩
  · intro start stop acc; rw [copy_eq]
  · intro start stop acc; rw [copy_eq]

end IntervalTree

namespace IntervalTreeView

open IntervalTree

variable {T : Type}

/-- C7: `move_next()` on a view with `at_end()` true throws "no more elements"; the state
of the view at the throw is the state it was called on. -/
theorem move_next_at_end (v : IntervalTreeView T) (h : v.at_end = true) :
    v.move_next = .error (.noMoreElements, v) := by
  unfold at_end at h
  unfold move_next
  cases hc : v.currentTree with
  | null => rfl
  | node _ _ _ _ => rw [hc] at h; simp [isNull] at h

theorem move_next_at_end_witness :
    ({ start := 4, stop := 7, toAnalize := [node [⟨1, 5, "a"⟩] null null 0],
       currentTree := null, currentIndex := SIZE_MOD - 1 } : IntervalTreeView String).at_end
      = true ∧
    ({ start := 4, stop := 7, toAnalize := [node [⟨1, 5, "a"⟩] null null 0],
       currentTree := null, currentIndex := SIZE_MOD - 1 } : IntervalTreeView String).move_next
      = .error (.noMoreElements,
          { start := 4, stop := 7, toAnalize := [node [⟨1, 5, "a"⟩] null null 0],
            currentTree := null, currentIndex := SIZE_MOD - 1 }) :=
  ⟨rfl, move_next_at_end _ rfl⟩

end IntervalTreeView

/-! ## One call of `move_next` from a positioned state -/

namespace IntervalTreeView

open IntervalTree

variable {T : Type}

theorem popLoop_spec (st : List (IntervalTree T)) :
    (popLoop st).1.weight + ((popLoop st).2.2.map weight).sum ≤ (st.map weight).sum ∧
    ((popLoop st).1 = null ∨
      ∃ x xs l r c, (popLoop st).1 = node (x :: xs) l r c ∧ (popLoop st).2.1 = 0) := by
  induction st with
  | nil => simp [popLoop, weight]
  | cons t rest ih =>
    cases t with
    | null => simp [popLoop, weight]
    | node ivs l r c =>
      cases ivs with
      | nil =>
        simp only [popLoop, List.map_cons, List.sum_cons]
        exact ⟨by omega, ih.2⟩
      | cons x xs =>
        simp [popLoop]

theorem sizePred_eq_mod (n : Nat) (h : n < SIZE_MOD) :
    sizePred n = (n + SIZE_MOD - 1) % SIZE_MOD := by
  unfold sizePred
  by_cases h0 : n = 0
  · subst h0
    simp [SIZE_MOD]
  · rw [if_neg h0]
    have h1 : n + SIZE_MOD - 1 = (n - 1) + SIZE_MOD := by omega
    rw [h1, Nat.add_mod_right, Nat.mod_eq_of_lt (by omega)]

theorem sizePred_le (n : Nat) (h : 0 < n) : sizePred n ≤ n - 1 := by
  unfold sizePred
  rw [if_neg (by omega)]

/-- The loop of `move_next`, entered on an in-bounds index with a budget above the
remaining work, returns normally, keeps the query, and stops at the end or on an
in-bounds entry that overlaps the query. -/
theorem moveLoop_ok (fuel : Nat) (start stop : Int) :
    ∀ (st : List (IntervalTree T)) (ivs : List (Interval T)) (l r : IntervalTree T) (c : Int)
      (idx : Nat), idx < ivs.length →
      l.weight + r.weight + (st.map weight).sum + (ivs.length - 1 - idx) < fuel →
      ∃ v1, moveLoop fuel start stop st ivs l r c idx = .ok v1 ∧
        v1.start = start ∧ v1.stop = stop ∧
        (v1.at_end = true ∨
          ∃ cand, v1.get_interval = some cand ∧ cand.stop ≥ start ∧ cand.start ≤ stop) := by
  induction fuel with
  | zero => intro st ivs l r c idx _ h; omega
  | succ fuel ih =>
    intro st ivs l r c idx hidx hfuel
    by_cases hlt : idx < sizePred ivs.length
    · -- the index moves on inside the bucket
      have hle := sizePred_le ivs.length (by omega)
      have hidx1 : idx + 1 < ivs.length := by omega
      have hget : ivs[idx + 1]? = some (ivs[idx + 1]) := List.getElem?_eq_getElem hidx1
      by_cases hp : stop ≥ (ivs[idx + 1]).start ∧ start ≤ (ivs[idx + 1]).stop
      · refine ⟨IntervalTreeView.mk start stop st (node ivs l r c) (idx + 1), ?_, rfl, rfl, ?_⟩
        · simp only [moveLoop, if_pos hlt, hget]
          simp [hp]
        · exact Or.inr ⟨ivs[idx + 1], by simp [get_interval, hget], hp.2, hp.1⟩
      · have hrec := ih st ivs l r c (idx + 1) hidx1 (by omega)
        obtain ⟨v1, hv1, hrest⟩ := hrec
        refine ⟨v1, ?_, hrest⟩
        simp only [moveLoop, if_pos hlt, hget]
        simpa [hp] using hv1
    · -- the bucket is finished: push the children, take the next pending node
      generalize hst2 :
        (if r.isNull = false ∧ stop ≥ c then
          r :: (if l.isNull = false ∧ start ≤ c then l :: st else st)
         else (if l.isNull = false ∧ start ≤ c then l :: st else st)) = st2
      have hw : (st2.map weight).sum ≤ l.weight + r.weight + (st.map weight).sum := by
        rw [← hst2]
        split_ifs <;> simp
        all_goals omega
      have hpop := popLoop_spec st2
      have hunf : moveLoop (fuel + 1) start stop st ivs l r c idx =
          match (popLoop st2).1 with
          | null => .ok { start := start, stop := stop, toAnalize := (popLoop st2).2.2,
                          currentTree := (popLoop st2).1, currentIndex := (popLoop st2).2.1 }
          | node intervals1 left1 right1 center1 =>
            match intervals1[(popLoop st2).2.1]? with
            | none => .error (.outOfBounds,
                { start := start, stop := stop, toAnalize := (popLoop st2).2.2,
                  currentTree := (popLoop st2).1, currentIndex := (popLoop st2).2.1 })
            | some interval =>
              if ¬ (stop ≥ interval.start ∧ start ≤ interval.stop) then
                moveLoop fuel start stop (popLoop st2).2.2 intervals1 left1 right1 center1
                  (popLoop st2).2.1
              else .ok { start := start, stop := stop, toAnalize := (popLoop st2).2.2,
                         currentTree := (popLoop st2).1,
                         currentIndex := (popLoop st2).2.1 } := by
        rw [← hst2]
        simp only [moveLoop, if_neg hlt]
      rw [hunf]
      rcases hpop with ⟨hwpop, hnull | ⟨x, xs, l1, r1, c1, hnode, hzero⟩⟩
      · rw [hnull]
        exact ⟨_, rfl, rfl, rfl, Or.inl (by simp [at_end, isNull])⟩
      · rw [hnode, hzero]
        simp only [List.getElem?_cons_zero]
        by_cases hp : stop ≥ x.start ∧ start ≤ x.stop
        · rw [if_neg (not_not.mpr hp)]
          refine ⟨_, rfl, rfl, rfl, Or.inr ⟨x, ?_, hp.2, hp.1⟩⟩
          simp [get_interval]
        · rw [if_pos hp]
          apply ih
          · simp
          · rw [hnode] at hwpop
            simp only [weight, List.length_cons] at hwpop
            simp only [List.length_cons]
            omega

theorem move_next_spec (v : IntervalTreeView T) (hne : v.at_end = false)
    (hin : v.get_interval.isSome = true) :
    ∃ v1, v.move_next = .ok v1 ∧ v1.start = v.start ∧ v1.stop = v.stop ∧
      (v1.at_end = true ∨
        ∃ c, v1.get_interval = some c ∧ c.stop ≥ v.start ∧ c.start ≤ v.stop) := by
  obtain ⟨start, stop, st, cur, idx⟩ := v
  cases cur with
  | null => simp [at_end, isNull] at hne
  | node ivs l r c =>
    have hidx : idx < ivs.length := by
      simp only [get_interval] at hin
      by_contra hge
      rw [List.getElem?_eq_none (by omega)] at hin
      simp at hin
    simp only [move_next, budget]
    apply moveLoop_ok
    · exact hidx
    · simp only [weight]
      omega

/-- C8: from a view that is not `at_end` and whose `currentIndex` is inside the bucket of
the current node, `move_next()` returns normally, keeps the query bounds, and leaves the
view either `at_end` or on an in-bounds bucket entry `c` with `c.stop >= start` and
`c.start <= stop`. -/
theorem move_next_positions (v : IntervalTreeView T) (hne : v.at_end = false)
    (hin : v.get_interval.isSome = true) :
    ∃ v1, v.move_next = .ok v1 ∧ v1.start = v.start ∧ v1.stop = v.stop ∧
      (v1.at_end = true ∨
        ∃ c, v1.get_interval = some c ∧ c.stop ≥ v.start ∧ c.start ≤ v.stop) :=
  move_next_spec v hne hin

/-- On a tree whose root bucket is not empty, every reachable view state that is not
`at_end` has its `currentIndex` inside the bucket of its current node. -/
theorem reachable_inBounds (x : Interval T) (xs : List (Interval T)) (l r : IntervalTree T)
    (c : Int) (start stop : Int) (v : IntervalTreeView T)
    (hv : Reachable (node (x :: xs) l r c) start stop v) :
    v.at_end = false → v.get_interval.isSome = true := by
  induction hv with
  | init => intro _; simp [ctor, get_interval]
  | next hprev hstep ih =>
    rename_i v0 v1
    intro hne1
    have hne0 : v0.at_end = false := by
      cases h0 : v0.at_end with
      | false => rfl
      | true =>
        have hcur : v0.currentTree = null := by
          cases hc : v0.currentTree with
          | null => rfl
          | node _ _ _ _ => simp [at_end, hc, isNull] at h0
        simp [move_next, hcur] at hstep
    obtain ⟨v2, hv2, _, _, hpos⟩ := move_next_spec v0 hne0 (ih hne0)
    have heq : v1 = v2 := by
      rw [hstep] at hv2
      exact Except.ok.inj hv2
    subst heq
    rcases hpos with hend | ⟨cand, hcand, _⟩
    · rw [hend] at hne1; cases hne1
    · rw [hcand]; rfl

theorem move_next_positions_witness :
    (IntervalTreeView.mk 4 7 [] (node [⟨1, 2, "x"⟩, ⟨1, 5, "a"⟩] null
        (node [(⟨6, 10, "b"⟩ : Interval String)] null null 0) 3) 0).at_end = false ∧
    (IntervalTreeView.mk 4 7 [] (node [⟨1, 2, "x"⟩, ⟨1, 5, "a"⟩] null
        (node [(⟨6, 10, "b"⟩ : Interval String)] null null 0) 3) 0).get_interval.isSome
      = true ∧
    ∃ v1, (IntervalTreeView.mk 4 7 [] (node [⟨1, 2, "x"⟩, ⟨1, 5, "a"⟩] null
        (node [(⟨6, 10, "b"⟩ : Interval String)] null null 0) 3) 0).move_next = .ok v1 ∧
      v1.start = 4 ∧ v1.stop = 7 ∧
      (v1.at_end = true ∨ ∃ c, v1.get_interval = some c ∧ c.stop ≥ 4 ∧ c.start ≤ 7) :=
  ⟨rfl, rfl, move_next_positions _ rfl rfl⟩

end IntervalTreeView

/-! ## What the constructor builds -/

namespace IntervalTree

variable {T : Type}

theorem IsStartSort_sorted {srt : List (Interval T) → List (Interval T)}
    (h : IsStartSort srt) (l : List (Interval T)) : StartSorted (srt l) :=
  (h l).2.imp (fun hab => not_lt.mp hab)

theorem split_perm (center : Int) (ivals : List (Interval T)) :
    (bucket center ivals ++ lefts center ivals ++ rights center ivals).Perm ivals := by
  induction ivals with
  | nil => simp [bucket, lefts, rights]
  | cons x xs ih =>
    by_cases h1 : x.stop < center
    · have hb : bucket center (x :: xs) = bucket center xs := by simp [bucket, h1]
      have hl : lefts center (x :: xs) = x :: lefts center xs := by simp [lefts, h1]
      have hr : rights center (x :: xs) = rights center xs := by simp [rights, h1]
      rw [hb, hl, hr]
      refine List.Perm.trans ?_ (List.Perm.cons x ih)
      simp only [List.append_assoc]
      exact List.perm_middle
    · by_cases h2 : x.start > center
      · have hb : bucket center (x :: xs) = bucket center xs := by simp [bucket, h1, h2]
        have hl : lefts center (x :: xs) = lefts center xs := by simp [lefts, h1]
        have hr : rights center (x :: xs) = x :: rights center xs := by
          simp only [rights, List.filter_cons]
          simp [h1, h2]
        rw [hb, hl, hr]
        refine List.Perm.trans ?_ (List.Perm.cons x ih)
        exact List.perm_middle
      · have hb : bucket center (x :: xs) = x :: bucket center xs := by
          simp only [bucket, List.filter_cons]
          simp [h1, h2]
        have hl : lefts center (x :: xs) = lefts center xs := by simp [lefts, h1]
        have hr : rights center (x :: xs) = rights center xs := by
          simp only [rights, List.filter_cons]
          simp [h1, h2]
        rw [hb, hl, hr]
        exact List.Perm.cons x ih

theorem StartSorted.filter {l : List (Interval T)} (h : StartSorted l) (p : Interval T → Bool) :
    StartSorted (l.filter p) :=
  List.Pairwise.sublist (List.filter_sublist l) h

/-- The splitting branch of the constructor, once the vector after the optional sort is
known to be `front :: rest` with `mid` at its middle index. -/
theorem ctorBody_split (srt : List (Interval T) → List (Interval T)) (d : Nat)
    (ivals : List (Interval T)) (minbucket : Nat) (leftextent rightextent : Int)
    (maxbucket : Nat) (hsplit : ¬ (ivals.length < minbucket ∧ ivals.length < maxbucket))
    (front : Interval T) (rest : List (Interval T)) (mid : Interval T)
    (hsorted : (if leftextent = 0 ∧ rightextent = 0 then srt ivals else ivals) = front :: rest)
    (hmid : (front :: rest)[(front :: rest).length / 2]? = some mid) :
    ctorBody srt (d + 1) ivals minbucket leftextent rightextent maxbucket =
      match
        (if (lefts mid.start (front :: rest)).isEmpty then some null
         else ctorBody srt d (lefts mid.start (front :: rest)) minbucket
            (if leftextent ≠ 0 ∨ rightextent ≠ 0 then leftextent else front.start)
            mid.start 512),
        (if (rights mid.start (front :: rest)).isEmpty then some null
         else ctorBody srt d (rights mid.start (front :: rest)) minbucket mid.start
            (if leftextent ≠ 0 ∨ rightextent ≠ 0 then rightextent else maxStop front rest)
            512) with
      | some l, some r => some (node (bucket mid.start (front :: rest)) l r mid.start)
      | _, _ => none := by
  simp only [ctorBody, if_neg hsplit]
  rw [hsorted]
  simp only [hmid, splitLoop_eq]

/-- A constructor call with `depth = d + 1` (as the recursive calls of the body at
`d + 1` are) runs the body at `d`: the decrement does not wrap. -/
theorem ctor_succ (srt : List (Interval T) → List (Interval T)) (d : Nat)
    (hd : d + 1 < UINT_MOD) (ivals : List (Interval T)) (minbucket : Nat)
    (leftextent rightextent : Int) (maxbucket : Nat) :
    ctor srt ivals (d + 1) minbucket leftextent rightextent maxbucket =
      ctorBody srt d ivals minbucket leftextent rightextent maxbucket := by
  unfold ctor
  have h1 : d + 1 + UINT_MOD - 1 = d + UINT_MOD := by omega
  rw [h1, Nat.add_mod_right, Nat.mod_eq_of_lt (by omega)]

theorem ctorBody_keeps (srt : List (Interval T) → List (Interval T)) (d : Nat)
    (ivals : List (Interval T)) (minbucket : Nat) (leftextent rightextent : Int)
    (maxbucket : Nat) (h : keepsInput d ivals.length minbucket maxbucket) :
    ctorBody srt d ivals minbucket leftextent rightextent maxbucket =
      some (node ivals null null 0) := by
  cases d with
  | zero => rfl
  | succ d =>
    rcases h with h | h
    · omega
    · simp only [ctorBody, if_pos h]

theorem child_spec (srt : List (Interval T) → List (Interval T)) (d : Nat)
    (ih : CtorSpec srt d) (sub : List (Interval T)) (minbucket : Nat)
    (leftextent rightextent : Int) :
    ∃ c, (if sub.isEmpty then some null
          else ctorBody srt d sub minbucket leftextent rightextent 512) = some c ∧
      (c.isNull = true ↔ sub = []) ∧
      (flatten c).Perm sub ∧ ChildRange c ∧ (StartSorted sub → BucketsSorted c) := by
  cases sub with
  | nil => exact ⟨null, rfl, by simp [isNull], by simp [flatten], trivial, fun _ => trivial⟩
  | cons x xs =>
    obtain ⟨c, hc, hnn, hperm, hcr, hbs⟩ :=
      ih (x :: xs) minbucket leftextent rightextent 512 (by simp)
    refine ⟨c, by simpa using hc, by simp [hnn], hperm, hcr, fun h => hbs (Or.inl h)⟩

theorem ctorBody_spec (srt : List (Interval T) → List (Interval T)) (hsrt : IsStartSort srt)
    (d : Nat) : CtorSpec srt d := by
  induction d with
  | zero =>
    intro ivals minbucket leftextent rightextent maxbucket _
    refine ⟨node ivals null null 0, rfl, rfl, by simp [flatten], ?_, ?_⟩
    · simp [ChildRange, flatten]
    · intro h
      rcases h with h | h
      · exact ⟨h, trivial, trivial⟩
      · exact absurd (Or.inl rfl) h.1
  | succ d ih =>
    intro ivals minbucket leftextent rightextent maxbucket hne
    by_cases hleaf : ivals.length < minbucket ∧ ivals.length < maxbucket
    · refine ⟨node ivals null null 0, ctorBody_keeps srt _ _ _ _ _ _ (Or.inr hleaf), rfl,
        by simp [flatten], ?_, ?_⟩
      · simp [ChildRange, flatten]
      · intro h
        rcases h with h | h
        · exact ⟨h, trivial, trivial⟩
        · exact absurd (Or.inr hleaf) h.1
    · -- the vector after the optional sort
      have hperm : (if leftextent = 0 ∧ rightextent = 0 then srt ivals else ivals).Perm
          ivals := by
        split_ifs
        · exact (hsrt ivals).1
        · exact List.Perm.refl _
      have hsortedOf : (StartSorted ivals ∨
          (¬ keepsInput (d + 1) ivals.length minbucket maxbucket ∧
            leftextent = 0 ∧ rightextent = 0)) →
          StartSorted (if leftextent = 0 ∧ rightextent = 0 then srt ivals else ivals) := by
        intro h
        split_ifs with he
        · exact IsStartSort_sorted hsrt ivals
        · rcases h with h | h
          · exact h
          · exact absurd h.2 he
      generalize hs : (if leftextent = 0 ∧ rightextent = 0 then srt ivals else ivals) = sorted
        at hperm hsortedOf
      cases sorted with
      | nil => exact absurd (List.Perm.eq_nil (List.Perm.symm hperm)) hne
      | cons front rest =>
        have hlen : (front :: rest).length / 2 < (front :: rest).length :=
          Nat.div_lt_self (by simp) (by decide)
        have hmid : (front :: rest)[(front :: rest).length / 2]? =
            some ((front :: rest)[(front :: rest).length / 2]) :=
          List.getElem?_eq_getElem hlen
        generalize (front :: rest)[(front :: rest).length / 2] = mid at hmid
        obtain ⟨l, hl, _, hlperm, hlcr, hlbs⟩ := child_spec srt d ih
          (lefts mid.start (front :: rest)) minbucket
          (if leftextent ≠ 0 ∨ rightextent ≠ 0 then leftextent else front.start) mid.start
        obtain ⟨r, hr, _, hrperm, hrcr, hrbs⟩ := child_spec srt d ih
          (rights mid.start (front :: rest)) minbucket mid.start
          (if leftextent ≠ 0 ∨ rightextent ≠ 0 then rightextent else maxStop front rest)
        refine ⟨node (bucket mid.start (front :: rest)) l r mid.start, ?_, rfl, ?_, ?_, ?_⟩
        · rw [ctorBody_split srt d ivals minbucket leftextent rightextent maxbucket hleaf
            front rest mid hs hmid, hl, hr]
        · refine List.Perm.trans ?_ (List.Perm.trans (split_perm mid.start (front :: rest)) hperm)
          simp only [flatten]
          exact List.Perm.append (List.Perm.append (List.Perm.refl _) hlperm) hrperm
        · refine ⟨?_, ?_, hlcr, hrcr⟩
          · intro i hi
            have hi2 := (List.Perm.mem_iff hlperm).mp hi
            simpa [lefts] using (List.mem_filter.mp hi2).2
          · intro i hi
            have hi2 := (List.Perm.mem_iff hrperm).mp hi
            have hi3 := (List.mem_filter.mp hi2).2
            simp only [decide_eq_true_eq] at hi3
            exact hi3.2
        · intro h
          have hsd := hsortedOf h
          exact ⟨StartSorted.filter hsd _, hlbs (StartSorted.filter hsd _),
            hrbs (StartSorted.filter hsd _)⟩


/-! ## `findContained` on a tree with sorted buckets and well-formed intervals -/

theorem scanContained_sorted (ivs : List (Interval T)) (hs : StartSorted ivs)
    (hwf : ∀ i ∈ ivs, i.start ≤ i.stop) (qs qe : Int) (acc : List (Interval T)) :
    scanContained ivs qs qe acc =
      acc ++ ivs.filter (fun i => i.start ≥ qs ∧ i.stop ≤ qe) := by
  rw [scanContained_eq]
  cases ivs with
  | nil => simp
  | cons front rest =>
    by_cases h : qe < front.start
    · have hnone : (front :: rest).filter (fun i => i.start ≥ qs ∧ i.stop ≤ qe) = [] := by
        rw [List.filter_eq_nil_iff]
        intro i hi
        have hfi : front.start ≤ i.start := by
          rcases List.mem_cons.mp hi with rfl | hmem
          · exact le_refl _
          · exact List.rel_of_pairwise_cons hs hmem
        have hwfi := hwf i hi
        simp only [decide_eq_true_eq, not_and, not_le]
        intro _
        omega
      simp only [if_pos h, hnone, List.append_nil]
    · simp only [if_neg h]

theorem findContained_left_step (l : IntervalTree T) (c qs qe : Int)
    (hrange : ∀ i ∈ flatten l, i.stop < c) (hwf : ∀ i ∈ flatten l, i.start ≤ i.stop)
    (ih : ∀ acc, findContained l qs qe acc =
      acc ++ (flatten l).filter (fun i => i.start ≥ qs ∧ i.stop ≤ qe))
    (acc : List (Interval T)) :
    (if l.isNull = false ∧ qs ≤ c then findContained l qs qe acc else acc) =
      acc ++ (flatten l).filter (fun i => i.start ≥ qs ∧ i.stop ≤ qe) := by
  by_cases h : l.isNull = false ∧ qs ≤ c
  · rw [if_pos h, ih]
  · rw [if_neg h]
    have hnone : (flatten l).filter (fun i => i.start ≥ qs ∧ i.stop ≤ qe) = [] := by
      rw [List.filter_eq_nil_iff]
      intro i hi
      have h1 := hrange i hi
      have h2 := hwf i hi
      have hc : ¬ qs ≤ c := by
        intro hq
        apply h
        refine ⟨?_, hq⟩
        cases l with
        | null => simp [flatten] at hi
        | node _ _ _ _ => rfl
      simp only [decide_eq_true_eq, not_and, not_le]
      intro _
      omega
    rw [hnone, List.append_nil]

theorem findContained_right_step (r : IntervalTree T) (c qs qe : Int)
    (hrange : ∀ i ∈ flatten r, i.start > c) (hwf : ∀ i ∈ flatten r, i.start ≤ i.stop)
    (ih : ∀ acc, findContained r qs qe acc =
      acc ++ (flatten r).filter (fun i => i.start ≥ qs ∧ i.stop ≤ qe))
    (acc : List (Interval T)) :
    (if r.isNull = false ∧ qe ≥ c then findContained r qs qe acc else acc) =
      acc ++ (flatten r).filter (fun i => i.start ≥ qs ∧ i.stop ≤ qe) := by
  by_cases h : r.isNull = false ∧ qe ≥ c
  · rw [if_pos h, ih]
  · rw [if_neg h]
    have hnone : (flatten r).filter (fun i => i.start ≥ qs ∧ i.stop ≤ qe) = [] := by
      rw [List.filter_eq_nil_iff]
      intro i hi
      have h1 := hrange i hi
      have h2 := hwf i hi
      have hc : ¬ qe ≥ c := by
        intro hq
        apply h
        refine ⟨?_, hq⟩
        cases r with
        | null => simp [flatten] at hi
        | node _ _ _ _ => rfl
      simp only [decide_eq_true_eq, not_and, not_le]
      intro _
      omega
    rw [hnone, List.append_nil]

/-- On a tree with the child ranges in place, sorted buckets and only intervals with
`start <= stop`, `findContained` appends to its output vector the stored intervals that
satisfy the containment test, in pre-order. -/
theorem findContained_eq_filter (t : IntervalTree T) :
    ChildRange t → BucketsSorted t → (∀ i ∈ flatten t, i.start ≤ i.stop) →
    ∀ (qs qe : Int) (acc : List (Interval T)),
      findContained t qs qe acc =
        acc ++ (flatten t).filter (fun i => i.start ≥ qs ∧ i.stop ≤ qe) := by
  induction t with
  | null => intro _ _ _ qs qe acc; simp [findContained, flatten]
  | node ivs l r c ihl ihr =>
    intro hcr hbs hwf qs qe acc
    obtain ⟨hlr, hrr, hlcr, hrcr⟩ := hcr
    obtain ⟨hsb, hlbs, hrbs⟩ := hbs
    have hwfb : ∀ i ∈ ivs, i.start ≤ i.stop := fun i hi => hwf i (by simp [flatten, hi])
    have hwfl : ∀ i ∈ flatten l, i.start ≤ i.stop := fun i hi => hwf i (by simp [flatten, hi])
    have hwfr : ∀ i ∈ flatten r, i.start ≤ i.stop := fun i hi => hwf i (by simp [flatten, hi])
    simp only [findContained]
    rw [scanContained_sorted ivs hsb hwfb,
      findContained_left_step l c qs qe hlr hwfl (ihl hlcr hlbs hwfl qs qe),
      findContained_right_step r c qs qe hrr hwfr (ihr hrcr hrbs hwfr qs qe)]
    simp [flatten, List.append_assoc]

/-- C2, as stated, fails: for the one-element vector `[(5,1,"m")]` (an interval with
`start > stop`) and the default arguments, `findContained(0,3)` returns nothing although
the interval has `start >= 0` and `stop <= 3`. -/
theorem findContained_malformed :
    ∃ t, ctorDefault sortByStart [(⟨5, 1, "m"⟩ : Interval String)] = some t ∧
      t.findContained 0 3 [] = [] ∧
      [(⟨5, 1, "m"⟩ : Interval String)].filter (fun i => i.start ≥ 0 ∧ i.stop ≤ 3) =
        [⟨5, 1, "m"⟩] :=
  ⟨_, rfl, by decide, by decide⟩

/-- C2, amended: when every input interval has `start <= stop`, the input is sorted by
non-decreasing `start` or the root splits (and so sorts it), and the input is non-empty
or the root keeps its input, the constructor called with extents `0, 0` returns a tree on
which `findContained(qs, qe)` returns, as a multiset, exactly the input intervals with
`start >= qs` and `stop <= qe`. -/
theorem findContained_wellformed (srt : List (Interval T) → List (Interval T))
    (hsrt : IsStartSort srt) (ivals : List (Interval T)) (depth minbucket maxbucket : Nat)
    (qs qe : Int)
    (hwf : ∀ i ∈ ivals, i.start ≤ i.stop)
    (hsorted : StartSorted ivals ∨
      ¬ keepsInput ((depth + UINT_MOD - 1) % UINT_MOD) ivals.length minbucket maxbucket)
    (hdone : ivals ≠ [] ∨
      keepsInput ((depth + UINT_MOD - 1) % UINT_MOD) ivals.length minbucket maxbucket) :
    ∃ t, ctor srt ivals depth minbucket 0 0 maxbucket = some t ∧
      (t.findContained qs qe []).Perm
        (ivals.filter (fun i => i.start ≥ qs ∧ i.stop ≤ qe)) := by
  unfold ctor
  generalize (depth + UINT_MOD - 1) % UINT_MOD = d at hsorted hdone
  by_cases hne : ivals = []
  · subst hne
    have hk : keepsInput d ([] : List (Interval T)).length minbucket maxbucket := by
      rcases hdone with h | h
      · exact absurd rfl h
      · exact h
    refine ⟨_, ctorBody_keeps srt d [] minbucket 0 0 maxbucket hk, ?_⟩
    simp [findContained, scanContained, isNull]
  · obtain ⟨t, ht, _, hperm, hcr, hbs⟩ := ctorBody_spec srt hsrt d ivals minbucket 0 0
      maxbucket hne
    refine ⟨t, ht, ?_⟩
    have hbs2 : BucketsSorted t := by
      apply hbs
      rcases hsorted with h | h
      · exact Or.inl h
      · exact Or.inr ⟨h, rfl, rfl⟩
    have hwft : ∀ i ∈ flatten t, i.start ≤ i.stop :=
      fun i hi => hwf i ((List.Perm.mem_iff hperm).mp hi)
    rw [findContained_eq_filter t hcr hbs2 hwft qs qe []]
    simpa using List.Perm.filter _ hperm

theorem findContained_wellformed_witness :
    IsStartSort (sortByStart : List (Interval String) → List (Interval String)) ∧
    (∀ i ∈ [(⟨1, 5, "a"⟩ : Interval String), ⟨6, 10, "b"⟩, ⟨3, 8, "c"⟩], i.start ≤ i.stop) ∧
    (StartSorted [(⟨1, 5, "a"⟩ : Interval String), ⟨6, 10, "b"⟩, ⟨3, 8, "c"⟩] ∨
      ¬ keepsInput ((16 + UINT_MOD - 1) % UINT_MOD)
        [(⟨1, 5, "a"⟩ : Interval String), ⟨6, 10, "b"⟩, ⟨3, 8, "c"⟩].length 0 512) ∧
    ([(⟨1, 5, "a"⟩ : Interval String), ⟨6, 10, "b"⟩, ⟨3, 8, "c"⟩] ≠ [] ∨
      keepsInput ((16 + UINT_MOD - 1) % UINT_MOD)
        [(⟨1, 5, "a"⟩ : Interval String), ⟨6, 10, "b"⟩, ⟨3, 8, "c"⟩].length 0 512) ∧
    ∃ t, ctor sortByStart [(⟨1, 5, "a"⟩ : Interval String), ⟨6, 10, "b"⟩, ⟨3, 8, "c"⟩]
        16 0 0 0 512 = some t ∧
      (t.findContained 0 8 []).Perm
        ([(⟨1, 5, "a"⟩ : Interval String), ⟨6, 10, "b"⟩, ⟨3, 8, "c"⟩].filter
          (fun i => i.start ≥ 0 ∧ i.stop ≤ 8)) :=
  ⟨sortByStart_isStartSort, by decide, Or.inr (by decide), Or.inl (by simp),
    findContained_wellformed sortByStart sortByStart_isStartSort _ 16 0 512 0 8 (by decide)
      (Or.inr (by decide)) (Or.inl (by simp))⟩

/-! ## Order and content of the query results -/

theorem scanOverlapping_sublist (ivs : List (Interval T)) (qs qe : Int)
    (acc : List (Interval T)) :
    ∃ res, scanOverlapping ivs qs qe acc = acc ++ res ∧
      res.Sublist (ivs.filter (fun i => i.stop ≥ qs ∧ i.start ≤ qe)) := by
  rw [scanOverlapping_eq]
  cases ivs with
  | nil => exact ⟨[], by simp, List.Sublist.refl _⟩
  | cons front rest =>
    by_cases h : qe < front.start
    · exact ⟨[], by simp [h], List.nil_sublist _⟩
    · exact ⟨_, by simp only [if_neg h], List.Sublist.refl _⟩

theorem scanContained_sublist (ivs : List (Interval T)) (qs qe : Int)
    (acc : List (Interval T)) :
    ∃ res, scanContained ivs qs qe acc = acc ++ res ∧
      res.Sublist (ivs.filter (fun i => i.start ≥ qs ∧ i.stop ≤ qe)) := by
  rw [scanContained_eq]
  cases ivs with
  | nil => exact ⟨[], by simp, List.Sublist.refl _⟩
  | cons front rest =>
    by_cases h : qe < front.start
    · exact ⟨[], by simp [h], List.nil_sublist _⟩
    · exact ⟨_, by simp only [if_neg h], List.Sublist.refl _⟩

/-- Whatever the tree, `findOverlapping` appends to its output vector a subsequence of the
stored intervals that pass the overlap test, in pre-order. -/
theorem findOverlapping_sublist (t : IntervalTree T) (qs qe : Int) :
    ∀ acc : List (Interval T), ∃ res, findOverlapping t qs qe acc = acc ++ res ∧
      res.Sublist ((flatten t).filter (fun i => i.stop ≥ qs ∧ i.start ≤ qe)) := by
  induction t with
  | null => intro acc; exact ⟨[], by simp [findOverlapping], List.nil_sublist _⟩
  | node ivs l r c ihl ihr =>
    intro acc
    obtain ⟨r0, h0, hs0⟩ := scanOverlapping_sublist ivs qs qe acc
    have h1 : ∃ r1, (if l.isNull = false ∧ qs ≤ c then findOverlapping l qs qe (acc ++ r0)
        else acc ++ r0) = acc ++ r0 ++ r1 ∧
        r1.Sublist ((flatten l).filter (fun i => i.stop ≥ qs ∧ i.start ≤ qe)) := by
      by_cases hc : l.isNull = false ∧ qs ≤ c
      · rw [if_pos hc]; exact ihl (acc ++ r0)
      · rw [if_neg hc]; exact ⟨[], by simp, List.nil_sublist _⟩
    obtain ⟨r1, h1, hs1⟩ := h1
    have h2 : ∃ r2, (if r.isNull = false ∧ qe ≥ c then
          findOverlapping r qs qe (acc ++ r0 ++ r1)
        else acc ++ r0 ++ r1) = acc ++ r0 ++ r1 ++ r2 ∧
        r2.Sublist ((flatten r).filter (fun i => i.stop ≥ qs ∧ i.start ≤ qe)) := by
      by_cases hc : r.isNull = false ∧ qe ≥ c
      · rw [if_pos hc]; exact ihr (acc ++ r0 ++ r1)
      · rw [if_neg hc]; exact ⟨[], by simp, List.nil_sublist _⟩
    obtain ⟨r2, h2, hs2⟩ := h2
    refine ⟨r0 ++ r1 ++ r2, ?_, ?_⟩
    · simp only [findOverlapping]
      rw [h0, h1, h2]
      simp only [List.append_assoc]
    · simp only [flatten, List.filter_append]
      exact List.Sublist.append (List.Sublist.append hs0 hs1) hs2

/-- Whatever the tree, `findContained` appends to its output vector a subsequence of the
stored intervals that pass the containment test, in pre-order. -/
theorem findContained_sublist (t : IntervalTree T) (qs qe : Int) :
    ∀ acc : List (Interval T), ∃ res, findContained t qs qe acc = acc ++ res ∧
      res.Sublist ((flatten t).filter (fun i => i.start ≥ qs ∧ i.stop ≤ qe)) := by
  induction t with
  | null => intro acc; exact ⟨[], by simp [findContained], List.nil_sublist _⟩
  | node ivs l r c ihl ihr =>
    intro acc
    obtain ⟨r0, h0, hs0⟩ := scanContained_sublist ivs qs qe acc
    have h1 : ∃ r1, (if l.isNull = false ∧ qs ≤ c then findContained l qs qe (acc ++ r0)
        else acc ++ r0) = acc ++ r0 ++ r1 ∧
        r1.Sublist ((flatten l).filter (fun i => i.start ≥ qs ∧ i.stop ≤ qe)) := by
      by_cases hc : l.isNull = false ∧ qs ≤ c
      · rw [if_pos hc]; exact ihl (acc ++ r0)
      · rw [if_neg hc]; exact ⟨[], by simp, List.nil_sublist _⟩
    obtain ⟨r1, h1, hs1⟩ := h1
    have h2 : ∃ r2, (if r.isNull = false ∧ qe ≥ c then
          findContained r qs qe (acc ++ r0 ++ r1)
        else acc ++ r0 ++ r1) = acc ++ r0 ++ r1 ++ r2 ∧
        r2.Sublist ((flatten r).filter (fun i => i.start ≥ qs ∧ i.stop ≤ qe)) := by
      by_cases hc : r.isNull = false ∧ qe ≥ c
      · rw [if_pos hc]; exact ihr (acc ++ r0 ++ r1)
      · rw [if_neg hc]; exact ⟨[], by simp, List.nil_sublist _⟩
    obtain ⟨r2, h2, hs2⟩ := h2
    refine ⟨r0 ++ r1 ++ r2, ?_, ?_⟩
    · simp only [findContained]
      rw [h0, h1, h2]
      simp only [List.append_assoc]
    · simp only [flatten, List.filter_append]
      exact List.Sublist.append (List.Sublist.append hs0 hs1) hs2

/-- C20: for every tree and every query, the sequence returned by `findOverlapping` is a
subsequence of the pre-order flattening of the tree (bucket, then left subtree, then right
subtree) and each of its members passes the overlap test; likewise `findContained` with
the containment test. -/
theorem result_order (t : IntervalTree T) (qs qe : Int) :
    ((findOverlapping t qs qe []).Sublist (flatten t) ∧
      ∀ i ∈ findOverlapping t qs qe [], i.stop ≥ qs ∧ i.start ≤ qe) ∧
    ((findContained t qs qe []).Sublist (flatten t) ∧
      ∀ i ∈ findContained t qs qe [], i.start ≥ qs ∧ i.stop ≤ qe) := by
  obtain ⟨ro, ho, hso⟩ := findOverlapping_sublist t qs qe []
  obtain ⟨rc, hc, hsc⟩ := findContained_sublist t qs qe []
  rw [ho, hc]
  simp only [List.nil_append]
  refine ⟨⟨hso.trans (List.filter_sublist _), ?_⟩, ⟨hsc.trans (List.filter_sublist _), ?_⟩⟩
  · intro i hi
    simpa using (List.mem_filter.mp (hso.subset hi)).2
  · intro i hi
    simpa using (List.mem_filter.mp (hsc.subset hi)).2

/-! ## Invariants of the built tree -/

theorem ctorBody_nil (srt : List (Interval T) → List (Interval T)) (hsrt : IsStartSort srt)
    (d minbucket : Nat) (leftextent rightextent : Int) (maxbucket : Nat) :
    ctorBody srt d [] minbucket leftextent rightextent maxbucket =
      if keepsInput d 0 minbucket maxbucket then some (node [] null null 0) else none := by
  by_cases hk : keepsInput d 0 minbucket maxbucket
  · rw [if_pos hk]
    exact ctorBody_keeps srt d [] minbucket leftextent rightextent maxbucket hk
  · rw [if_neg hk]
    cases d with
    | zero => exact absurd (Or.inl rfl) hk
    | succ d =>
      have hsplit : ¬ (([] : List (Interval T)).length < minbucket ∧
          ([] : List (Interval T)).length < maxbucket) := fun h => hk (Or.inr h)
      have hnil : srt [] = [] := List.Perm.eq_nil (hsrt []).1
      simp only [ctorBody, if_neg hsplit, hnil, ite_self]

/-- C11: for a non-empty input, whatever the other arguments, the constructor returns a
tree whose buckets together hold exactly the input intervals (as a multiset); and every
run of the partition loop splits its input into a bucket, a left input and a right input
that together make up the input, the three being told apart by mutually exclusive tests
(`stop < center`; not that and `start > center`; neither). -/
theorem partition_invariant (srt : List (Interval T) → List (Interval T))
    (hsrt : IsStartSort srt) (ivals : List (Interval T)) (hne : ivals ≠ [])
    (depth minbucket : Nat) (leftextent rightextent : Int) (maxbucket : Nat) :
    (∃ t, ctor srt ivals depth minbucket leftextent rightextent maxbucket = some t ∧
      (flatten t).Perm ivals) ∧
    (∀ (center : Int) (input : List (Interval T)),
      ((splitLoop center input).2.2 ++ (splitLoop center input).1 ++
        (splitLoop center input).2.1).Perm input ∧
      (∀ i ∈ (splitLoop center input).1, i.stop < center) ∧
      (∀ i ∈ (splitLoop center input).2.1, ¬ i.stop < center ∧ i.start > center) ∧
      (∀ i ∈ (splitLoop center input).2.2, ¬ i.stop < center ∧ ¬ i.start > center)) := by
  constructor
  · obtain ⟨t, ht, _, hperm, _⟩ := ctorBody_spec srt hsrt ((depth + UINT_MOD - 1) % UINT_MOD)
      ivals minbucket leftextent rightextent maxbucket hne
    exact ⟨t, ht, hperm⟩
  · intro center input
    rw [splitLoop_eq]
    refine ⟨split_perm center input, ?_, ?_, ?_⟩
    · intro i hi
      simpa [lefts] using (List.mem_filter.mp hi).2
    · intro i hi
      have h := (List.mem_filter.mp hi).2
      simpa only [decide_eq_true_eq] using h
    · intro i hi
      have h := (List.mem_filter.mp hi).2
      simpa only [decide_eq_true_eq] using h

theorem partition_invariant_witness :
    IsStartSort (sortByStart : List (Interval String) → List (Interval String)) ∧
    [(⟨1, 5, "a"⟩ : Interval String), ⟨6, 10, "b"⟩, ⟨3, 8, "c"⟩] ≠ [] ∧
    (∃ t, ctor sortByStart [(⟨1, 5, "a"⟩ : Interval String), ⟨6, 10, "b"⟩, ⟨3, 8, "c"⟩]
        16 0 0 0 512 = some t ∧
      (flatten t).Perm [(⟨1, 5, "a"⟩ : Interval String), ⟨6, 10, "b"⟩, ⟨3, 8, "c"⟩]) :=
  ⟨sortByStart_isStartSort, by simp,
    (partition_invariant sortByStart sortByStart_isStartSort _ (by simp) 16 0 0 0 512).1⟩

theorem BucketsSorted.frontIsMin (t : IntervalTree T) (h : BucketsSorted t) :
    AllBuckets FrontIsMin t := by
  induction t with
  | null => trivial
  | node ivs l r c ihl ihr =>
    obtain ⟨hs, hl, hr⟩ := h
    refine ⟨?_, ihl hl, ihr hr⟩
    intro front rest hb i hi
    subst hb
    rcases List.mem_cons.mp hi with rfl | hmem
    · exact le_refl _
    · exact List.rel_of_pairwise_cons hs hmem

/-- C15: when the input is sorted by non-decreasing `start`, every tree the constructor
returns has all its buckets sorted by non-decreasing `start`, so the front element of each
non-empty bucket has the least `start` of that bucket; and for a non-empty input the
constructor does return a tree. -/
theorem buckets_sorted (srt : List (Interval T) → List (Interval T))
    (hsrt : IsStartSort srt) (ivals : List (Interval T)) (hs : StartSorted ivals)
    (depth minbucket : Nat) (leftextent rightextent : Int) (maxbucket : Nat) :
    (∀ t, ctor srt ivals depth minbucket leftextent rightextent maxbucket = some t →
      BucketsSorted t ∧ AllBuckets FrontIsMin t) ∧
    (ivals ≠ [] →
      ∃ t, ctor srt ivals depth minbucket leftextent rightextent maxbucket = some t) := by
  unfold ctor
  generalize (depth + UINT_MOD - 1) % UINT_MOD = d
  constructor
  · intro t ht
    by_cases hne : ivals = []
    · subst hne
      rw [ctorBody_nil srt hsrt] at ht
      split_ifs at ht
      cases ht
      exact ⟨⟨List.Pairwise.nil, trivial, trivial⟩,
        ⟨fun _ _ h => (by cases h), trivial, trivial⟩⟩
    · obtain ⟨t1, ht1, _, _, _, hbs⟩ := ctorBody_spec srt hsrt d ivals minbucket leftextent
        rightextent maxbucket hne
      rw [ht1] at ht
      cases ht
      exact ⟨hbs (Or.inl hs), BucketsSorted.frontIsMin _ (hbs (Or.inl hs))⟩
  · intro hne
    obtain ⟨t1, ht1, _⟩ := ctorBody_spec srt hsrt d ivals minbucket leftextent
      rightextent maxbucket hne
    exact ⟨t1, ht1⟩

theorem buckets_sorted_witness :
    IsStartSort (sortByStart : List (Interval String) → List (Interval String)) ∧
    StartSorted [(⟨1, 5, "a"⟩ : Interval String), ⟨3, 8, "c"⟩, ⟨6, 10, "b"⟩] ∧
    ((∀ t, ctor sortByStart [(⟨1, 5, "a"⟩ : Interval String), ⟨3, 8, "c"⟩, ⟨6, 10, "b"⟩]
        3 1 0 0 512 = some t → BucketsSorted t ∧ AllBuckets FrontIsMin t) ∧
      ([(⟨1, 5, "a"⟩ : Interval String), ⟨3, 8, "c"⟩, ⟨6, 10, "b"⟩] ≠ [] →
        ∃ t, ctor sortByStart [(⟨1, 5, "a"⟩ : Interval String), ⟨3, 8, "c"⟩, ⟨6, 10, "b"⟩]
          3 1 0 0 512 = some t)) :=
  ⟨sortByStart_isStartSort, by decide,
    buckets_sorted sortByStart sortByStart_isStartSort _ (by decide) 3 1 0 0 512⟩

/-! ## `findOverlapping` on a tree with sorted buckets -/

theorem scanOverlapping_sorted (ivs : List (Interval T)) (hs : StartSorted ivs)
    (qs qe : Int) (acc : List (Interval T)) :
    scanOverlapping ivs qs qe acc =
      acc ++ ivs.filter (fun i => i.stop ≥ qs ∧ i.start ≤ qe) := by
  rw [scanOverlapping_eq]
  cases ivs with
  | nil => simp
  | cons front rest =>
    by_cases h : qe < front.start
    · have hnone : (front :: rest).filter (fun i => i.stop ≥ qs ∧ i.start ≤ qe) = [] := by
        rw [List.filter_eq_nil_iff]
        intro i hi
        have hfi : front.start ≤ i.start := by
          rcases List.mem_cons.mp hi with rfl | hmem
          · exact le_refl _
          · exact List.rel_of_pairwise_cons hs hmem
        simp only [decide_eq_true_eq, not_and, not_le]
        intro _
        omega
      simp only [if_pos h, hnone, List.append_nil]
    · simp only [if_neg h]

theorem findOverlapping_left_step (l : IntervalTree T) (c qs qe : Int)
    (hrange : ∀ i ∈ flatten l, i.stop < c)
    (ih : ∀ acc, findOverlapping l qs qe acc =
      acc ++ (flatten l).filter (fun i => i.stop ≥ qs ∧ i.start ≤ qe))
    (acc : List (Interval T)) :
    (if l.isNull = false ∧ qs ≤ c then findOverlapping l qs qe acc else acc) =
      acc ++ (flatten l).filter (fun i => i.stop ≥ qs ∧ i.start ≤ qe) := by
  by_cases h : l.isNull = false ∧ qs ≤ c
  · rw [if_pos h, ih]
  · rw [if_neg h]
    have hnone : (flatten l).filter (fun i => i.stop ≥ qs ∧ i.start ≤ qe) = [] := by
      rw [List.filter_eq_nil_iff]
      intro i hi
      have h1 := hrange i hi
      have hc : ¬ qs ≤ c := by
        intro hq
        apply h
        refine ⟨?_, hq⟩
        cases l with
        | null => simp [flatten] at hi
        | node _ _ _ _ => rfl
      simp only [decide_eq_true_eq, not_and, not_le]
      intro _
      omega
    rw [hnone, List.append_nil]

theorem findOverlapping_right_step (r : IntervalTree T) (c qs qe : Int)
    (hrange : ∀ i ∈ flatten r, i.start > c)
    (ih : ∀ acc, findOverlapping r qs qe acc =
      acc ++ (flatten r).filter (fun i => i.stop ≥ qs ∧ i.start ≤ qe))
    (acc : List (Interval T)) :
    (if r.isNull = false ∧ qe ≥ c then findOverlapping r qs qe acc else acc) =
      acc ++ (flatten r).filter (fun i => i.stop ≥ qs ∧ i.start ≤ qe) := by
  by_cases h : r.isNull = false ∧ qe ≥ c
  · rw [if_pos h, ih]
  · rw [if_neg h]
    have hnone : (flatten r).filter (fun i => i.stop ≥ qs ∧ i.start ≤ qe) = [] := by
      rw [List.filter_eq_nil_iff]
      intro i hi
      have h1 := hrange i hi
      have hc : ¬ qe ≥ c := by
        intro hq
        apply h
        refine ⟨?_, hq⟩
        cases r with
        | null => simp [flatten] at hi
        | node _ _ _ _ => rfl
      simp only [decide_eq_true_eq, not_and, not_le]
      intro _
      omega
    rw [hnone, List.append_nil]

/-- On a tree with the child ranges in place and sorted buckets, `findOverlapping` appends
to its output vector the stored intervals that pass the overlap test, in pre-order;
intervals with `start > stop` are no exception. -/
theorem findOverlapping_eq_filter (t : IntervalTree T) :
    ChildRange t → BucketsSorted t →
    ∀ (qs qe : Int) (acc : List (Interval T)),
      findOverlapping t qs qe acc =
        acc ++ (flatten t).filter (fun i => i.stop ≥ qs ∧ i.start ≤ qe) := by
  induction t with
  | null => intro _ _ qs qe acc; simp [findOverlapping, flatten]
  | node ivs l r c ihl ihr =>
    intro hcr hbs qs qe acc
    obtain ⟨hlr, hrr, hlcr, hrcr⟩ := hcr
    obtain ⟨hsb, hlbs, hrbs⟩ := hbs
    simp only [findOverlapping]
    rw [scanOverlapping_sorted ivs hsb,
      findOverlapping_left_step l c qs qe hlr (ihl hlcr hlbs qs qe),
      findOverlapping_right_step r c qs qe hrr (ihr hrcr hrbs qs qe)]
    simp [flatten, List.append_assoc]

/-- When the input is sorted by non-decreasing `start` or the root splits, and the input
is non-empty or the root keeps its input, the constructor called with extents `0, 0`
returns a tree on which `findOverlapping(qs, qe)` returns, as a multiset, exactly the
input intervals with `stop >= qs` and `start <= qe`. -/
theorem findOverlapping_sorted_or_split (srt : List (Interval T) → List (Interval T))
    (hsrt : IsStartSort srt) (ivals : List (Interval T)) (depth minbucket maxbucket : Nat)
    (qs qe : Int)
    (hsorted : StartSorted ivals ∨
      ¬ keepsInput ((depth + UINT_MOD - 1) % UINT_MOD) ivals.length minbucket maxbucket)
    (hdone : ivals ≠ [] ∨
      keepsInput ((depth + UINT_MOD - 1) % UINT_MOD) ivals.length minbucket maxbucket) :
    ∃ t, ctor srt ivals depth minbucket 0 0 maxbucket = some t ∧
      (t.findOverlapping qs qe []).Perm
        (ivals.filter (fun i => i.stop ≥ qs ∧ i.start ≤ qe)) := by
  unfold ctor
  generalize (depth + UINT_MOD - 1) % UINT_MOD = d at hsorted hdone
  by_cases hne : ivals = []
  · subst hne
    have hk : keepsInput d ([] : List (Interval T)).length minbucket maxbucket := by
      rcases hdone with h | h
      · exact absurd rfl h
      · exact h
    refine ⟨_, ctorBody_keeps srt d [] minbucket 0 0 maxbucket hk, ?_⟩
    simp [findOverlapping, scanOverlapping, isNull]
  · obtain ⟨t, ht, _, hperm, hcr, hbs⟩ := ctorBody_spec srt hsrt d ivals minbucket 0 0
      maxbucket hne
    refine ⟨t, ht, ?_⟩
    have hbs2 : BucketsSorted t := by
      apply hbs
      rcases hsorted with h | h
      · exact Or.inl h
      · exact Or.inr ⟨h, rfl, rfl⟩
    rw [findOverlapping_eq_filter t hcr hbs2 qs qe []]
    simpa using List.Perm.filter _ hperm

theorem ctor_built_iff (srt : List (Interval T) → List (Interval T))
    (hsrt : IsStartSort srt) (ivals : List (Interval T)) (depth minbucket : Nat)
    (leftextent rightextent : Int) (maxbucket : Nat) :
    (∃ t, ctor srt ivals depth minbucket leftextent rightextent maxbucket = some t) ↔
      (ivals ≠ [] ∨
        keepsInput ((depth + UINT_MOD - 1) % UINT_MOD) ivals.length minbucket maxbucket) := by
  unfold ctor
  generalize (depth + UINT_MOD - 1) % UINT_MOD = d
  constructor
  · rintro ⟨t, ht⟩
    by_cases hne : ivals = []
    · subst hne
      rw [ctorBody_nil srt hsrt] at ht
      split_ifs at ht with hk
      exact Or.inr hk
    · exact Or.inl hne
  · intro h
    by_cases hne : ivals = []
    · subst hne
      rcases h with h | h
      · exact absurd rfl h
      · exact ⟨_, ctorBody_keeps srt d [] minbucket leftextent rightextent maxbucket h⟩
    · obtain ⟨t, ht, _⟩ := ctorBody_spec srt hsrt d ivals minbucket leftextent rightextent
        maxbucket hne
      exact ⟨t, ht⟩

/-- C12: when the input is sorted by non-decreasing `start`, or the root splits (and so
sorts it), then on every tree the constructor returns for that input `findOverlapping(qs,
qe)` returns, as a multiset, exactly the input intervals with `stop >= qs` and
`start <= qe`, intervals with `start > stop` included; and the constructor does return a
tree whenever the input is non-empty or the root keeps its input. -/
theorem overlap_sorted_or_split (srt : List (Interval T) → List (Interval T))
    (hsrt : IsStartSort srt) (ivals : List (Interval T)) (depth minbucket maxbucket : Nat)
    (qs qe : Int)
    (hsorted : StartSorted ivals ∨
      ¬ keepsInput ((depth + UINT_MOD - 1) % UINT_MOD) ivals.length minbucket maxbucket) :
    (∀ t, ctor srt ivals depth minbucket 0 0 maxbucket = some t →
      (t.findOverlapping qs qe []).Perm
        (ivals.filter (fun i => i.stop ≥ qs ∧ i.start ≤ qe))) ∧
    ((ivals ≠ [] ∨
        keepsInput ((depth + UINT_MOD - 1) % UINT_MOD) ivals.length minbucket maxbucket) →
      ∃ t, ctor srt ivals depth minbucket 0 0 maxbucket = some t) := by
  constructor
  · intro t ht
    have hdone := (ctor_built_iff srt hsrt ivals depth minbucket 0 0 maxbucket).mp ⟨t, ht⟩
    obtain ⟨t1, ht1, hperm⟩ := findOverlapping_sorted_or_split srt hsrt ivals depth minbucket
      maxbucket qs qe hsorted hdone
    rw [ht1] at ht
    cases ht
    exact hperm
  · exact (ctor_built_iff srt hsrt ivals depth minbucket 0 0 maxbucket).mpr

theorem overlap_sorted_or_split_witness :
    IsStartSort (sortByStart : List (Interval String) → List (Interval String)) ∧
    (StartSorted [(⟨6, 10, "b"⟩ : Interval String), ⟨5, 1, "m"⟩, ⟨3, 8, "c"⟩] ∨
      ¬ keepsInput ((0 + UINT_MOD - 1) % UINT_MOD)
        [(⟨6, 10, "b"⟩ : Interval String), ⟨5, 1, "m"⟩, ⟨3, 8, "c"⟩].length 64 2) ∧
    ((∀ t, ctor sortByStart [(⟨6, 10, "b"⟩ : Interval String), ⟨5, 1, "m"⟩, ⟨3, 8, "c"⟩]
        0 64 0 0 2 = some t →
      (t.findOverlapping 2 4 []).Perm
        ([(⟨6, 10, "b"⟩ : Interval String), ⟨5, 1, "m"⟩, ⟨3, 8, "c"⟩].filter
          (fun i => i.stop ≥ 2 ∧ i.start ≤ 4))) ∧
     (([(⟨6, 10, "b"⟩ : Interval String), ⟨5, 1, "m"⟩, ⟨3, 8, "c"⟩] ≠ [] ∨
        keepsInput ((0 + UINT_MOD - 1) % UINT_MOD)
          [(⟨6, 10, "b"⟩ : Interval String), ⟨5, 1, "m"⟩, ⟨3, 8, "c"⟩].length 64 2) →
      ∃ t, ctor sortByStart [(⟨6, 10, "b"⟩ : Interval String), ⟨5, 1, "m"⟩, ⟨3, 8, "c"⟩]
        0 64 0 0 2 = some t)) :=
  ⟨sortByStart_isStartSort, Or.inr (by decide),
    overlap_sorted_or_split sortByStart sortByStart_isStartSort _ 0 64 2 2 4
      (Or.inr (by decide))⟩

/-- C13: when every input interval has `start <= stop` and the input is sorted by
non-decreasing `start` or the root splits (and so sorts it), then on every tree the
constructor returns for that input `findContained(qs, qe)` returns, as a multiset, exactly
the input intervals with `start >= qs` and `stop <= qe`: neither the fast reject nor the
pruning at the centers drops a contained interval; and the constructor does return a tree
whenever the input is non-empty or the root keeps its input. -/
theorem contained_sorted_or_split (srt : List (Interval T) → List (Interval T))
    (hsrt : IsStartSort srt) (ivals : List (Interval T)) (depth minbucket maxbucket : Nat)
    (qs qe : Int)
    (hwf : ∀ i ∈ ivals, i.start ≤ i.stop)
    (hsorted : StartSorted ivals ∨
      ¬ keepsInput ((depth + UINT_MOD - 1) % UINT_MOD) ivals.length minbucket maxbucket) :
    (∀ t, ctor srt ivals depth minbucket 0 0 maxbucket = some t →
      (t.findContained qs qe []).Perm
        (ivals.filter (fun i => i.start ≥ qs ∧ i.stop ≤ qe))) ∧
    ((ivals ≠ [] ∨
        keepsInput ((depth + UINT_MOD - 1) % UINT_MOD) ivals.length minbucket maxbucket) →
      ∃ t, ctor srt ivals depth minbucket 0 0 maxbucket = some t) := by
  constructor
  · intro t ht
    by_cases hne : ivals = []
    · subst hne
      unfold ctor at ht
      rw [ctorBody_nil srt hsrt] at ht
      split_ifs at ht
      cases ht
      simp [findContained, scanContained, isNull]
    · unfold ctor at ht
      obtain ⟨t1, ht1, _, hperm, hcr, hbs⟩ := ctorBody_spec srt hsrt
        ((depth + UINT_MOD - 1) % UINT_MOD) ivals minbucket 0 0 maxbucket hne
      rw [ht1] at ht
      cases ht
      have hbs2 : BucketsSorted t := by
        apply hbs
        rcases hsorted with h | h
        · exact Or.inl h
        · exact Or.inr ⟨h, rfl, rfl⟩
      have hwft : ∀ i ∈ flatten t, i.start ≤ i.stop :=
        fun i hi => hwf i ((List.Perm.mem_iff hperm).mp hi)
      rw [findContained_eq_filter t hcr hbs2 hwft qs qe []]
      simpa using List.Perm.filter _ hperm
  · exact (ctor_built_iff srt hsrt ivals depth minbucket 0 0 maxbucket).mpr

theorem contained_sorted_or_split_witness :
    IsStartSort (sortByStart : List (Interval String) → List (Interval String)) ∧
    (∀ i ∈ [(⟨1, 5, "a"⟩ : Interval String), ⟨3, 8, "c"⟩, ⟨6, 10, "b"⟩], i.start ≤ i.stop) ∧
    (StartSorted [(⟨1, 5, "a"⟩ : Interval String), ⟨3, 8, "c"⟩, ⟨6, 10, "b"⟩] ∨
      ¬ keepsInput ((16 + UINT_MOD - 1) % UINT_MOD)
        [(⟨1, 5, "a"⟩ : Interval String), ⟨3, 8, "c"⟩, ⟨6, 10, "b"⟩].length 64 512) ∧
    ((∀ t, ctor sortByStart [(⟨1, 5, "a"⟩ : Interval String), ⟨3, 8, "c"⟩, ⟨6, 10, "b"⟩]
        16 64 0 0 512 = some t →
      (t.findContained 2 9 []).Perm
        ([(⟨1, 5, "a"⟩ : Interval String), ⟨3, 8, "c"⟩, ⟨6, 10, "b"⟩].filter
          (fun i => i.start ≥ 2 ∧ i.stop ≤ 9))) ∧
     (([(⟨1, 5, "a"⟩ : Interval String), ⟨3, 8, "c"⟩, ⟨6, 10, "b"⟩] ≠ [] ∨
        keepsInput ((16 + UINT_MOD - 1) % UINT_MOD)
          [(⟨1, 5, "a"⟩ : Interval String), ⟨3, 8, "c"⟩, ⟨6, 10, "b"⟩].length 64 512) →
      ∃ t, ctor sortByStart [(⟨1, 5, "a"⟩ : Interval String), ⟨3, 8, "c"⟩, ⟨6, 10, "b"⟩]
        16 64 0 0 512 = some t)) :=
  ⟨sortByStart_isStartSort, by decide, Or.inl (by decide),
    contained_sorted_or_split sortByStart sortByStart_isStartSort _ 16 64 512 2 9 (by decide)
      (Or.inl (by decide))⟩

/-! ## Induction along the recursion of the constructor -/

/-- Induction principle for the constructor body on non-empty inputs: a property that
holds for a node that keeps its input, and that passes from the children built from the
left and right parts to the node built by the splitting branch, holds for the tree that
the constructor body returns. -/
theorem ctorBody_induct (srt : List (Interval T) → List (Interval T)) (hsrt : IsStartSort srt)
    (P : Nat → List (Interval T) → Nat → Nat → IntervalTree T → Prop)
    (hkeep : ∀ d ivals minbucket maxbucket, ivals ≠ [] →
      keepsInput d ivals.length minbucket maxbucket →
      P d ivals minbucket maxbucket (node ivals null null 0))
    (hsplit : ∀ d ivals minbucket maxbucket (sorted : List (Interval T)) (mid : Interval T)
      (l r : IntervalTree T),
      ¬ keepsInput (d + 1) ivals.length minbucket maxbucket →
      sorted.Perm ivals → mid ∈ sorted →
      (flatten l).Perm (lefts mid.start sorted) →
      (l.isNull = true ↔ lefts mid.start sorted = []) →
      (lefts mid.start sorted ≠ [] → P d (lefts mid.start sorted) minbucket 512 l) →
      (flatten r).Perm (rights mid.start sorted) →
      (r.isNull = true ↔ rights mid.start sorted = []) →
      (rights mid.start sorted ≠ [] → P d (rights mid.start sorted) minbucket 512 r) →
      P (d + 1) ivals minbucket maxbucket (node (bucket mid.start sorted) l r mid.start)) :
    ∀ (d : Nat) (ivals : List (Interval T)) (minbucket : Nat) (leftextent rightextent : Int)
      (maxbucket : Nat), ivals ≠ [] →
      ∃ t, ctorBody srt d ivals minbucket leftextent rightextent maxbucket = some t ∧
        t.isNull = false ∧ (flatten t).Perm ivals ∧ P d ivals minbucket maxbucket t := by
  intro d
  induction d with
  | zero =>
    intro ivals minbucket leftextent rightextent maxbucket hne
    exact ⟨node ivals null null 0, rfl, rfl, by simp [flatten],
      hkeep 0 ivals minbucket maxbucket hne (Or.inl rfl)⟩
  | succ d ih =>
    intro ivals minbucket leftextent rightextent maxbucket hne
    by_cases hleaf : ivals.length < minbucket ∧ ivals.length < maxbucket
    · exact ⟨node ivals null null 0, ctorBody_keeps srt _ _ _ _ _ _ (Or.inr hleaf), rfl,
        by simp [flatten], hkeep (d + 1) ivals minbucket maxbucket hne (Or.inr hleaf)⟩
    · have hnk : ¬ keepsInput (d + 1) ivals.length minbucket maxbucket := by
        rintro (h | h)
        · omega
        · exact hleaf h
      have hperm : (if leftextent = 0 ∧ rightextent = 0 then srt ivals else ivals).Perm
          ivals := by
        split_ifs
        · exact (hsrt ivals).1
        · exact List.Perm.refl _
      generalize hs : (if leftextent = 0 ∧ rightextent = 0 then srt ivals else ivals) = sorted
        at hperm
      cases sorted with
      | nil => exact absurd (List.Perm.eq_nil (List.Perm.symm hperm)) hne
      | cons front rest =>
        have hlen : (front :: rest).length / 2 < (front :: rest).length :=
          Nat.div_lt_self (by simp) (by decide)
        have hmid : (front :: rest)[(front :: rest).length / 2]? =
            some ((front :: rest)[(front :: rest).length / 2]) :=
          List.getElem?_eq_getElem hlen
        have hmem : (front :: rest)[(front :: rest).length / 2] ∈ front :: rest :=
          List.getElem_mem hlen
        generalize (front :: rest)[(front :: rest).length / 2] = mid at hmid hmem
        have hchild : ∀ (sub : List (Interval T)) (le1 re1 : Int),
            ∃ c, (if sub.isEmpty then some null
                  else ctorBody srt d sub minbucket le1 re1 512) = some c ∧
              (flatten c).Perm sub ∧ (c.isNull = true ↔ sub = []) ∧
              (sub ≠ [] → P d sub minbucket 512 c) := by
          intro sub le1 re1
          cases sub with
          | nil =>
            exact ⟨null, rfl, by simp [flatten], by simp [isNull], fun h => absurd rfl h⟩
          | cons x xs =>
            obtain ⟨c, hc, hnn, hp, hP⟩ := ih (x :: xs) minbucket le1 re1 512 (by simp)
            exact ⟨c, by simpa using hc, hp, by simp [hnn], fun _ => hP⟩
        obtain ⟨l, hl, hlperm, hlnull, hlP⟩ := hchild (lefts mid.start (front :: rest))
          (if leftextent ≠ 0 ∨ rightextent ≠ 0 then leftextent else front.start) mid.start
        obtain ⟨r, hr, hrperm, hrnull, hrP⟩ := hchild (rights mid.start (front :: rest))
          mid.start
          (if leftextent ≠ 0 ∨ rightextent ≠ 0 then rightextent else maxStop front rest)
        refine ⟨node (bucket mid.start (front :: rest)) l r mid.start, ?_, rfl, ?_, ?_⟩
        · rw [ctorBody_split srt d ivals minbucket leftextent rightextent maxbucket hleaf
            front rest mid hs hmid, hl, hr]
        · refine List.Perm.trans ?_ (List.Perm.trans (split_perm mid.start (front :: rest)) hperm)
          simp only [flatten]
          exact List.Perm.append (List.Perm.append (List.Perm.refl _) hlperm) hrperm
        · exact hsplit d ivals minbucket maxbucket (front :: rest) mid l r hnk hperm hmem
            hlperm hlnull hlP hrperm hrnull hrP

theorem eq_null_of_isNull (t : IntervalTree T) (h : t.isNull = true) : t = null := by
  cases t with
  | null => rfl
  | node _ _ _ _ => simp [isNull] at h

theorem height_ctorBody (srt : List (Interval T) → List (Interval T)) (hsrt : IsStartSort srt)
    (d : Nat) (ivals : List (Interval T)) (minbucket : Nat) (leftextent rightextent : Int)
    (maxbucket : Nat) (hne : ivals ≠ []) :
    ∃ t, ctorBody srt d ivals minbucket leftextent rightextent maxbucket = some t ∧
      height t ≤ d + 1 := by
  obtain ⟨t, ht, _, _, hP⟩ := ctorBody_induct srt hsrt (fun d _ _ _ t => height t ≤ d + 1)
    (by
      intro d ivals minbucket maxbucket _ _
      simp [height])
    (by
      intro d ivals minbucket maxbucket sorted mid l r _ _ _ _ hlnull hlP _ hrnull hrP
      have hl : height l ≤ d + 1 := by
        by_cases h : lefts mid.start sorted = []
        · rw [eq_null_of_isNull l (hlnull.mpr h)]; simp [height]
        · exact hlP h
      have hr : height r ≤ d + 1 := by
        by_cases h : rights mid.start sorted = []
        · rw [eq_null_of_isNull r (hrnull.mpr h)]; simp [height]
        · exact hrP h
      simp only [height]
      omega)
    d ivals minbucket leftextent rightextent maxbucket hne
  exact ⟨t, ht, hP⟩

theorem decrement_le (depth : Nat) (h : 1 ≤ depth) :
    (depth + UINT_MOD - 1) % UINT_MOD + 1 ≤ depth := by
  have h1 : depth + UINT_MOD - 1 = (depth - 1) + UINT_MOD := by omega
  rw [h1, Nat.add_mod_right]
  have := Nat.mod_le (depth - 1) UINT_MOD
  omega

/-- C19: for a non-empty input and `depth >= 1`, whatever the other arguments, the
constructor returns a tree of height at most `depth`; and with `depth = 1` it returns the
single childless node whose bucket is the input in its given order. -/
theorem depth_bound (srt : List (Interval T) → List (Interval T)) (hsrt : IsStartSort srt)
    (ivals : List (Interval T)) (hne : ivals ≠ []) (depth : Nat) (hd : 1 ≤ depth)
    (minbucket : Nat) (leftextent rightextent : Int) (maxbucket : Nat) :
    (∃ t, ctor srt ivals depth minbucket leftextent rightextent maxbucket = some t ∧
      height t ≤ depth) ∧
    ctor srt ivals 1 minbucket leftextent rightextent maxbucket =
      some (node ivals null null 0) := by
  constructor
  · obtain ⟨t, ht, hh⟩ := height_ctorBody srt hsrt ((depth + UINT_MOD - 1) % UINT_MOD) ivals
      minbucket leftextent rightextent maxbucket hne
    exact ⟨t, ht, le_trans hh (decrement_le depth hd)⟩
  · rfl

theorem depth_bound_witness :
    IsStartSort (sortByStart : List (Interval String) → List (Interval String)) ∧
    [(⟨1, 1, "a"⟩ : Interval String), ⟨2, 2, "b"⟩, ⟨5, 5, "c"⟩, ⟨6, 6, "d"⟩, ⟨7, 7, "e"⟩] ≠ [] ∧
    1 ≤ 2 ∧
    ((∃ t, ctor sortByStart
        [(⟨1, 1, "a"⟩ : Interval String), ⟨2, 2, "b"⟩, ⟨5, 5, "c"⟩, ⟨6, 6, "d"⟩, ⟨7, 7, "e"⟩]
        2 0 0 0 0 = some t ∧ height t ≤ 2) ∧
     ctor sortByStart
        [(⟨1, 1, "a"⟩ : Interval String), ⟨2, 2, "b"⟩, ⟨5, 5, "c"⟩, ⟨6, 6, "d"⟩, ⟨7, 7, "e"⟩]
        1 0 0 0 0 =
      some (node
        [(⟨1, 1, "a"⟩ : Interval String), ⟨2, 2, "b"⟩, ⟨5, 5, "c"⟩, ⟨6, 6, "d"⟩, ⟨7, 7, "e"⟩]
        null null 0)) :=
  ⟨sortByStart_isStartSort, by simp, by decide,
    depth_bound sortByStart sortByStart_isStartSort _ (by simp) 2 (by decide) 0 0 0 0⟩

/-! ## Nodes built by the splitting branch -/

theorem AtSplits_null (Q : List (Interval T) → IntervalTree T → IntervalTree T → Int → Prop)
    (d minbucket maxbucket : Nat) : AtSplits Q d minbucket maxbucket (null : IntervalTree T) := by
  cases d <;> trivial

theorem AtSplits_keep (Q : List (Interval T) → IntervalTree T → IntervalTree T → Int → Prop)
    (d minbucket maxbucket : Nat) (ivals : List (Interval T))
    (h : keepsInput d ivals.length minbucket maxbucket) :
    AtSplits Q d minbucket maxbucket (node ivals null null 0) := by
  refine ⟨?_, AtSplits_null Q _ _ _, AtSplits_null Q _ _ _⟩
  intro hn
  exact absurd (by simpa [flatten] using h) hn

/-- A property that holds at the node produced by any run of the splitting branch holds at
every split node of the tree the constructor body returns. -/
theorem atSplits_ctorBody (srt : List (Interval T) → List (Interval T))
    (hsrt : IsStartSort srt)
    (Q : List (Interval T) → IntervalTree T → IntervalTree T → Int → Prop)
    (hQ : ∀ (sorted : List (Interval T)) (mid : Interval T) (l r : IntervalTree T),
      mid ∈ sorted →
      (flatten l).Perm (lefts mid.start sorted) →
      (l.isNull = true ↔ lefts mid.start sorted = []) →
      (flatten r).Perm (rights mid.start sorted) →
      (r.isNull = true ↔ rights mid.start sorted = []) →
      Q (bucket mid.start sorted) l r mid.start)
    (d : Nat) (ivals : List (Interval T)) (minbucket : Nat) (leftextent rightextent : Int)
    (maxbucket : Nat) (hne : ivals ≠ []) :
    ∃ t, ctorBody srt d ivals minbucket leftextent rightextent maxbucket = some t ∧
      AtSplits Q d minbucket maxbucket t := by
  obtain ⟨t, ht, _, _, hP⟩ := ctorBody_induct srt hsrt
    (fun d _ minbucket maxbucket t => AtSplits Q d minbucket maxbucket t)
    (by
      intro d ivals minbucket maxbucket _ hk
      exact AtSplits_keep Q d minbucket maxbucket ivals hk)
    (by
      intro d ivals minbucket maxbucket sorted mid l r _ _ hmem hlperm hlnull hlP hrperm
        hrnull hrP
      refine ⟨fun _ => hQ sorted mid l r hmem hlperm hlnull hrperm hrnull, ?_, ?_⟩
      · by_cases h : lefts mid.start sorted = []
        · rw [eq_null_of_isNull l (hlnull.mpr h)]; exact AtSplits_null Q _ _ _
        · exact hlP h
      · by_cases h : rights mid.start sorted = []
        · rw [eq_null_of_isNull r (hrnull.mpr h)]; exact AtSplits_null Q _ _ _
        · exact hrP h)
    d ivals minbucket leftextent rightextent maxbucket hne
  exact ⟨t, ht, hP⟩

/-- C16, as stated, fails: with the default arguments the root built from
`[(1,2,"a"), (5,6,"b")]` keeps both intervals in its bucket, and no value of `center`
whatever is overlapped by both. -/
theorem straddle_fails_keep_node :
    ∃ ivs l r c0,
      ctorDefault sortByStart [(⟨1, 2, "a"⟩ : Interval String), ⟨5, 6, "b"⟩] =
        some (node ivs l r c0) ∧
      ∀ c : Int, ¬ (∀ i ∈ ivs, ¬ i.stop < c ∧ ¬ i.start > c) := by
  refine ⟨_, _, _, _, rfl, ?_⟩
  intro c h
  have h1 := h ⟨1, 2, "a"⟩ (by simp)
  have h2 := h ⟨5, 6, "b"⟩ (by simp)
  simp only at h1 h2
  omega

/-- C16, amended: in every tree the constructor returns, at every node built by the
splitting branch every interval of the node's own bucket overlaps the node's center
(`not (stop < center)` and `not (start > center)`); a node that keeps its whole input is
not covered.  For a non-empty input the constructor does return a tree. -/
theorem straddle_at_splits (srt : List (Interval T) → List (Interval T))
    (hsrt : IsStartSort srt) (ivals : List (Interval T)) (depth minbucket : Nat)
    (leftextent rightextent : Int) (maxbucket : Nat) :
    (∀ t, ctor srt ivals depth minbucket leftextent rightextent maxbucket = some t →
      AtSplits Straddles ((depth + UINT_MOD - 1) % UINT_MOD) minbucket maxbucket t) ∧
    (ivals ≠ [] →
      ∃ t, ctor srt ivals depth minbucket leftextent rightextent maxbucket = some t) := by
  unfold ctor
  generalize (depth + UINT_MOD - 1) % UINT_MOD = d
  have hex : ivals ≠ [] → ∃ t, ctorBody srt d ivals minbucket leftextent rightextent
      maxbucket = some t ∧ AtSplits Straddles d minbucket maxbucket t := by
    intro hne
    apply atSplits_ctorBody srt hsrt Straddles _ d ivals minbucket leftextent rightextent
      maxbucket hne
    intro sorted mid l r _ _ _ _ _ i hi
    have h := (List.mem_filter.mp hi).2
    simpa only [decide_eq_true_eq] using h
  constructor
  · intro t ht
    by_cases hne : ivals = []
    · subst hne
      rw [ctorBody_nil srt hsrt] at ht
      split_ifs at ht with hk
      cases ht
      exact AtSplits_keep Straddles d minbucket maxbucket [] hk
    · obtain ⟨t1, ht1, hat⟩ := hex hne
      rw [ht1] at ht
      cases ht
      exact hat
  · intro hne
    obtain ⟨t1, ht1, _⟩ := hex hne
    exact ⟨t1, ht1⟩

theorem straddle_at_splits_witness :
    IsStartSort (sortByStart : List (Interval String) → List (Interval String)) ∧
    ¬ keepsInput ((16 + UINT_MOD - 1) % UINT_MOD)
        [(⟨1, 5, "a"⟩ : Interval String), ⟨6, 10, "b"⟩, ⟨3, 8, "c"⟩].length 0 512 ∧
    ((∀ t, ctor sortByStart [(⟨1, 5, "a"⟩ : Interval String), ⟨6, 10, "b"⟩, ⟨3, 8, "c"⟩]
        16 0 0 0 512 = some t →
      AtSplits Straddles ((16 + UINT_MOD - 1) % UINT_MOD) 0 512 t) ∧
     ([(⟨1, 5, "a"⟩ : Interval String), ⟨6, 10, "b"⟩, ⟨3, 8, "c"⟩] ≠ [] →
      ∃ t, ctor sortByStart [(⟨1, 5, "a"⟩ : Interval String), ⟨6, 10, "b"⟩, ⟨3, 8, "c"⟩]
        16 0 0 0 512 = some t)) :=
  ⟨sortByStart_isStartSort, by decide,
    straddle_at_splits sortByStart sortByStart_isStartSort _ 16 0 0 0 512⟩

theorem absentIffEmpty_split (sorted : List (Interval T)) (mid : Interval T)
    (l r : IntervalTree T)
    (hlperm : (flatten l).Perm (lefts mid.start sorted))
    (hlnull : l.isNull = true ↔ lefts mid.start sorted = [])
    (hrperm : (flatten r).Perm (rights mid.start sorted))
    (hrnull : r.isNull = true ↔ rights mid.start sorted = []) :
    AbsentIffEmpty (bucket mid.start sorted) l r mid.start := by
  have hmem : ∀ i, i ∈ bucket mid.start sorted ++ flatten l ++ flatten r ↔ i ∈ sorted := by
    intro i
    have hp : (bucket mid.start sorted ++ flatten l ++ flatten r).Perm sorted :=
      List.Perm.trans
        (List.Perm.append (List.Perm.append (List.Perm.refl _) hlperm) hrperm)
        (split_perm mid.start sorted)
    exact List.Perm.mem_iff hp
  constructor
  · rw [hlnull]
    simp only [lefts, List.filter_eq_nil_iff, decide_eq_true_eq]
    exact ⟨fun h i hi => h i ((hmem i).mp hi), fun h i hi => h i ((hmem i).mpr hi)⟩
  · rw [hrnull]
    simp only [rights, List.filter_eq_nil_iff, decide_eq_true_eq]
    exact ⟨fun h i hi => h i ((hmem i).mp hi), fun h i hi => h i ((hmem i).mpr hi)⟩

/-- C17, as stated, fails: with the default arguments the root built from
`[(1,2,"a"), (5,6,"b")]` keeps its input and has no child, although for every value of
`center` some input interval ends before it or starts after it. -/
theorem absent_child_keep_node :
    ∃ ivs c0,
      ctorDefault sortByStart [(⟨1, 2, "a"⟩ : Interval String), ⟨5, 6, "b"⟩] =
        some (node ivs null null c0) ∧
      ∀ c : Int, ¬ ((∀ i ∈ ivs, ¬ i.stop < c) ∧ (∀ i ∈ ivs, ¬ i.start > c)) := by
  refine ⟨_, _, rfl, ?_⟩
  intro c h
  have h1 := h.1 ⟨1, 2, "a"⟩ (by simp)
  have h2 := h.2 ⟨5, 6, "b"⟩ (by simp)
  simp only at h1 h2
  omega

/-- C17, amended: in every tree the constructor returns, at every node every interval
stored in the left subtree has `stop < center` and every interval stored in the right
subtree has `start > center`; and at every node built by the splitting branch the left
child is absent exactly when no interval of the node's input has `stop < center`, the
right child exactly when no interval of the node's input has `start > center` without
`stop < center`.  A node that keeps its whole input is not covered by the second part.
For a non-empty input the constructor does return a tree. -/
theorem child_range_and_absence (srt : List (Interval T) → List (Interval T))
    (hsrt : IsStartSort srt) (ivals : List (Interval T)) (depth minbucket : Nat)
    (leftextent rightextent : Int) (maxbucket : Nat) :
    (∀ t, ctor srt ivals depth minbucket leftextent rightextent maxbucket = some t →
      ChildRange t ∧
      AtSplits AbsentIffEmpty ((depth + UINT_MOD - 1) % UINT_MOD) minbucket maxbucket t) ∧
    (ivals ≠ [] →
      ∃ t, ctor srt ivals depth minbucket leftextent rightextent maxbucket = some t) := by
  unfold ctor
  generalize (depth + UINT_MOD - 1) % UINT_MOD = d
  have hex : ivals ≠ [] → ∃ t, ctorBody srt d ivals minbucket leftextent rightextent
      maxbucket = some t ∧ ChildRange t ∧ AtSplits AbsentIffEmpty d minbucket maxbucket t := by
    intro hne
    obtain ⟨t1, ht1, _, _, hcr, _⟩ := ctorBody_spec srt hsrt d ivals minbucket leftextent
      rightextent maxbucket hne
    obtain ⟨t2, ht2, hat⟩ := atSplits_ctorBody srt hsrt AbsentIffEmpty
      (fun sorted mid l r _ hlperm hlnull hrperm hrnull =>
        absentIffEmpty_split sorted mid l r hlperm hlnull hrperm hrnull)
      d ivals minbucket leftextent rightextent maxbucket hne
    rw [ht1] at ht2
    cases ht2
    exact ⟨t1, ht1, hcr, hat⟩
  constructor
  · intro t ht
    by_cases hne : ivals = []
    · subst hne
      rw [ctorBody_nil srt hsrt] at ht
      split_ifs at ht with hk
      cases ht
      exact ⟨by simp [ChildRange, flatten],
        AtSplits_keep AbsentIffEmpty d minbucket maxbucket [] hk⟩
    · obtain ⟨t1, ht1, hcr, hat⟩ := hex hne
      rw [ht1] at ht
      cases ht
      exact ⟨hcr, hat⟩
  · intro hne
    obtain ⟨t1, ht1, _⟩ := hex hne
    exact ⟨t1, ht1⟩

theorem child_range_and_absence_witness :
    IsStartSort (sortByStart : List (Interval String) → List (Interval String)) ∧
    ¬ keepsInput ((16 + UINT_MOD - 1) % UINT_MOD)
        [(⟨1, 5, "a"⟩ : Interval String), ⟨6, 10, "b"⟩, ⟨3, 8, "c"⟩].length 0 512 ∧
    ((∀ t, ctor sortByStart [(⟨1, 5, "a"⟩ : Interval String), ⟨6, 10, "b"⟩, ⟨3, 8, "c"⟩]
        16 0 0 0 512 = some t →
      ChildRange t ∧
      AtSplits AbsentIffEmpty ((16 + UINT_MOD - 1) % UINT_MOD) 0 512 t) ∧
     ([(⟨1, 5, "a"⟩ : Interval String), ⟨6, 10, "b"⟩, ⟨3, 8, "c"⟩] ≠ [] →
      ∃ t, ctor sortByStart [(⟨1, 5, "a"⟩ : Interval String), ⟨6, 10, "b"⟩, ⟨3, 8, "c"⟩]
        16 0 0 0 512 = some t)) :=
  ⟨sortByStart_isStartSort, by decide,
    child_range_and_absence sortByStart sortByStart_isStartSort _ 16 0 0 0 512⟩

/-- C18: with `maxbucket = 2` chosen by the caller, the root built from five intervals
splits, but its left child, built from the two intervals `(1,1)` and `(2,2)`, is the tree
the constructor builds with `maxbucket = 512` (it keeps its input, although two is not
below the caller's `maxbucket`), not the tree it builds with `maxbucket = 2`. -/
theorem children_use_default_maxbucket :
    ctor sortByStart
        [(⟨1, 1, "a"⟩ : Interval String), ⟨2, 2, "b"⟩, ⟨5, 5, "c"⟩, ⟨6, 6, "d"⟩, ⟨7, 7, "e"⟩]
        16 64 0 0 2 =
      some (node [⟨5, 5, "c"⟩]
        (node [⟨1, 1, "a"⟩, ⟨2, 2, "b"⟩] null null 0)
        (node [⟨6, 6, "d"⟩, ⟨7, 7, "e"⟩] null null 0) 5) ∧
    ctor sortByStart [(⟨1, 1, "a"⟩ : Interval String), ⟨2, 2, "b"⟩] 15 64 1 5 512 =
      some (node [⟨1, 1, "a"⟩, ⟨2, 2, "b"⟩] null null 0) ∧
    ctor sortByStart [(⟨1, 1, "a"⟩ : Interval String), ⟨2, 2, "b"⟩] 15 64 1 5 2 =
      some (node [⟨2, 2, "b"⟩] (node [⟨1, 1, "a"⟩] null null 0) null 2) ∧
    ¬ keepsInput 14 [(⟨1, 1, "a"⟩ : Interval String), ⟨2, 2, "b"⟩].length 64 2 :=
  ⟨by decide, by decide, by decide, by decide⟩

end IntervalTree

/-! ## What a drain of the view produces -/

namespace IntervalTreeView

open IntervalTree

variable {T : Type}

theorem lazyStack_push (start stop : Int) (st : List (IntervalTree T)) (l r : IntervalTree T)
    (c : Int) :
    lazyStack start stop
      (if r.isNull = false ∧ stop ≥ c then
        r :: (if l.isNull = false ∧ start ≤ c then l :: st else st)
       else (if l.isNull = false ∧ start ≤ c then l :: st else st)) =
    (if r.isNull = false ∧ stop ≥ c then lazyTree start stop r else []) ++
      (if l.isNull = false ∧ start ≤ c then lazyTree start stop l else []) ++
      lazyStack start stop st := by
  split_ifs <;> simp [lazyStack]

theorem StackOk_push (start stop : Int) (st : List (IntervalTree T)) (l r : IntervalTree T)
    (c : Int) (hl : FullBuckets l) (hr : FullBuckets r) (hst : StackOk st) :
    StackOk
      (if r.isNull = false ∧ stop ≥ c then
        r :: (if l.isNull = false ∧ start ≤ c then l :: st else st)
       else (if l.isNull = false ∧ start ≤ c then l :: st else st)) := by
  intro t ht
  split_ifs at ht with h1 h2 h2
  · rcases List.mem_cons.mp ht with rfl | ht
    · exact ⟨h1.1, hr⟩
    · rcases List.mem_cons.mp ht with rfl | ht
      · exact ⟨h2.1, hl⟩
      · exact hst t ht
  · rcases List.mem_cons.mp ht with rfl | ht
    · exact ⟨h1.1, hr⟩
    · exact hst t ht
  · rcases List.mem_cons.mp ht with rfl | ht
    · exact ⟨h2.1, hl⟩
    · exact hst t ht
  · exact hst t ht

theorem popLoop_full (st : List (IntervalTree T)) (h : StackOk st) :
    (st = [] ∧ popLoop st = (null, SIZE_MOD - 1, [])) ∨
    (∃ x xs l r c rest, st = node (x :: xs) l r c :: rest ∧
      popLoop st = (node (x :: xs) l r c, 0, rest)) := by
  cases st with
  | nil => exact Or.inl ⟨rfl, rfl⟩
  | cons t rest =>
    right
    obtain ⟨hnn, hfull⟩ := h t (by simp)
    cases t with
    | null => simp [isNull] at hnn
    | node ivs l r c =>
      cases ivs with
      | nil => exact absurd rfl hfull.1
      | cons x xs => exact ⟨x, xs, l, r, c, rest, rfl, by simp [popLoop]⟩

/-- One call of the loop of `move_next` from an in-bounds index, when all buckets in sight
are non-empty: it returns normally, and what the new state has left to give (its current
interval and the pending ones) is what was pending before the call. -/
theorem moveLoop_remaining (fuel : Nat) (start stop : Int) :
    ∀ (st : List (IntervalTree T)) (ivs : List (Interval T)) (l r : IntervalTree T) (c : Int)
      (idx : Nat), idx < ivs.length → FullBuckets (node ivs l r c) → StackOk st →
      l.weight + r.weight + (st.map weight).sum + (ivs.length - 1 - idx) < fuel →
      ∃ v1, moveLoop fuel start stop st ivs l r c idx = .ok v1 ∧
        v1.start = start ∧ v1.stop = stop ∧ Good v1 ∧
        remaining v1 = pending start stop st ivs l r c idx := by
  induction fuel with
  | zero => intro st ivs l r c idx _ _ _ h; omega
  | succ fuel ih =>
    intro st ivs l r c idx hidx hfull hst hfuel
    by_cases hlt : idx < sizePred ivs.length
    · have hle := sizePred_le ivs.length (by omega)
      have hidx1 : idx + 1 < ivs.length := by omega
      have hget : ivs[idx + 1]? = some (ivs[idx + 1]) := List.getElem?_eq_getElem hidx1
      have hdrop : ivs.drop (idx + 1) = ivs[idx + 1] :: ivs.drop (idx + 1 + 1) :=
        List.drop_eq_getElem_cons hidx1
      by_cases hp : stop ≥ (ivs[idx + 1]).start ∧ start ≤ (ivs[idx + 1]).stop
      · refine ⟨IntervalTreeView.mk start stop st (node ivs l r c) (idx + 1), ?_, rfl, rfl,
          ?_, ?_⟩
        · simp only [moveLoop, if_pos hlt, hget]
          simp [hp]
        · exact Or.inr ⟨rfl, by simp [get_interval, hget], hfull, hst⟩
        · simp only [remaining, hget, pending]
          rw [hdrop, List.filter_cons_of_pos (by simpa using hp)]
          simp
      · obtain ⟨v1, hv1, hs1, hs2, hgood, hrem⟩ :=
          ih st ivs l r c (idx + 1) hidx1 hfull hst (by omega)
        refine ⟨v1, ?_, hs1, hs2, hgood, ?_⟩
        · simp only [moveLoop, if_pos hlt, hget]
          simpa [hp] using hv1
        · rw [hrem]
          simp only [pending]
          rw [hdrop, List.filter_cons_of_neg (by simpa using hp)]
    · have hlen : ivs.length ≤ idx + 1 := by
        unfold sizePred at hlt
        rw [if_neg (by omega)] at hlt
        omega
      have hpend : pending start stop st ivs l r c idx =
          lazyStack start stop
            (if r.isNull = false ∧ stop ≥ c then
              r :: (if l.isNull = false ∧ start ≤ c then l :: st else st)
             else (if l.isNull = false ∧ start ≤ c then l :: st else st)) := by
        rw [lazyStack_push]
        simp only [pending, List.drop_of_length_le hlen, List.filter_nil, List.nil_append]
      have hst2ok := StackOk_push start stop st l r c hfull.2.1 hfull.2.2 hst
      generalize hst2 :
        (if r.isNull = false ∧ stop ≥ c then
          r :: (if l.isNull = false ∧ start ≤ c then l :: st else st)
         else (if l.isNull = false ∧ start ≤ c then l :: st else st)) = st2
        at hpend hst2ok
      have hw : (st2.map weight).sum ≤ l.weight + r.weight + (st.map weight).sum := by
        rw [← hst2]
        split_ifs <;> simp
        all_goals omega
      have hunf : moveLoop (fuel + 1) start stop st ivs l r c idx =
          match (popLoop st2).1 with
          | null => .ok (IntervalTreeView.mk start stop (popLoop st2).2.2 (popLoop st2).1
              (popLoop st2).2.1)
          | node intervals1 left1 right1 center1 =>
            match intervals1[(popLoop st2).2.1]? with
            | none => .error (.outOfBounds,
                IntervalTreeView.mk start stop (popLoop st2).2.2 (popLoop st2).1
                  (popLoop st2).2.1)
            | some interval =>
              if ¬ (stop ≥ interval.start ∧ start ≤ interval.stop) then
                moveLoop fuel start stop (popLoop st2).2.2 intervals1 left1 right1 center1
                  (popLoop st2).2.1
              else .ok (IntervalTreeView.mk start stop (popLoop st2).2.2 (popLoop st2).1
                (popLoop st2).2.1) := by
        rw [← hst2]
        simp only [moveLoop, if_neg hlt]
      rw [hunf, hpend]
      rcases popLoop_full st2 hst2ok with ⟨hnil, hpop⟩ | ⟨x, xs, l1, r1, c1, rest, hcons, hpop⟩
      · rw [hpop, hnil]
        exact ⟨_, rfl, rfl, rfl, Or.inl rfl, by simp [remaining, lazyStack]⟩
      · rw [hpop, hcons]
        have hfull1 : FullBuckets (node (x :: xs) l1 r1 c1) :=
          (hst2ok _ (by rw [hcons]; simp)).2
        have hrest : StackOk rest := fun t ht => hst2ok t (by rw [hcons]; simp [ht])
        simp only [List.getElem?_cons_zero]
        by_cases hp : stop ≥ x.start ∧ start ≤ x.stop
        · rw [if_neg (not_not.mpr hp)]
          refine ⟨_, rfl, rfl, rfl, Or.inr ⟨rfl, by simp [get_interval], hfull1, hrest⟩, ?_⟩
          simp only [remaining, List.getElem?_cons_zero, pending, lazyStack, lazyTree,
            List.drop_succ_cons, List.drop_zero]
          rw [List.filter_cons_of_pos (by simpa using hp)]
          simp
        · rw [if_pos hp]
          obtain ⟨v1, hv1, hs1, hs2, hgood, hrem⟩ :=
            ih rest (x :: xs) l1 r1 c1 0 (by simp) hfull1 hrest (by
              rw [hcons] at hw
              simp only [List.map_cons, List.sum_cons, weight, List.length_cons] at hw
              simp only [List.length_cons]
              omega)
          refine ⟨v1, hv1, hs1, hs2, hgood, ?_⟩
          rw [hrem]
          simp only [pending, lazyStack, lazyTree, List.drop_succ_cons, List.drop_zero]
          rw [List.filter_cons_of_neg (by simpa using hp)]

/-- The read loop of a drain, started on a state that is at the end or properly
positioned, with a budget above the number of intervals left, returns what was collected
so far followed by the current interval and the pending ones. -/
theorem drainLoop_remaining :
    ∀ (todo : List (Interval T)) (v : IntervalTreeView T) (out : List (Interval T))
      (fuel : Nat), Good v → remaining v = todo → todo.length < fuel →
      drainLoop fuel v out = .ok (out ++ todo) := by
  intro todo
  induction todo with
  | nil =>
    intro v out fuel hgood hrem hfuel
    obtain ⟨start, stop, st, cur, idx⟩ := v
    cases fuel with
    | zero => simp at hfuel
    | succ fuel =>
      cases cur with
      | null => simp [drainLoop, at_end, isNull]
      | node ivs l r c =>
        rcases hgood with h | ⟨_, hsome, _, _⟩
        · cases h
        · simp only [get_interval] at hsome
          cases hg : ivs[idx]? with
          | none => rw [hg] at hsome; cases hsome
          | some x => simp [remaining, hg] at hrem
  | cons x todo ih =>
    intro v out fuel hgood hrem hfuel
    obtain ⟨start, stop, st, cur, idx⟩ := v
    cases fuel with
    | zero => simp at hfuel
    | succ fuel =>
      cases cur with
      | null => simp [remaining] at hrem
      | node ivs l r c =>
        rcases hgood with h | ⟨_, _, hfull, hst⟩
        · cases h
        · cases hg : ivs[idx]? with
          | none => simp [remaining, hg] at hrem
          | some y =>
            simp only [remaining, hg, List.cons.injEq] at hrem
            obtain ⟨hxy, hpend⟩ := hrem
            subst hxy
            have hidx : idx < ivs.length := by
              by_contra hge
              rw [List.getElem?_eq_none (by omega)] at hg
              cases hg
            obtain ⟨v1, hv1, hs1, hs2, hgood1, hrem1⟩ :=
              moveLoop_remaining
                ((node ivs l r c).weight + (st.map weight).sum + 1) start stop st ivs l r c
                idx hidx hfull hst (by simp only [weight]; omega)
            have hstep : (IntervalTreeView.mk start stop st (node ivs l r c) idx).move_next =
                .ok v1 := by
              simp only [move_next, budget]
              exact hv1
            have hrec := ih v1 (out ++ [y]) fuel hgood1 (by rw [hrem1, hpend])
              (by simp only [List.length_cons] at hfuel; omega)
            simp only [drainLoop, at_end, isNull, get_interval, hg, hstep]
            simp [hrec]

theorem lazyTree_length (start stop : Int) (t : IntervalTree T) :
    (lazyTree start stop t).length ≤ t.weight := by
  induction t with
  | null => simp [lazyTree, weight]
  | node ivs l r c ihl ihr =>
    simp only [lazyTree, weight, List.length_append]
    have h0 := List.length_filter_le (fun i : Interval T => stop ≥ i.start ∧ start ≤ i.stop) ivs
    have h1 : (if r.isNull = false ∧ stop ≥ c then lazyTree start stop r else []).length
        ≤ r.weight := by
      split_ifs
      · exact ihr
      · simp
    have h2 : (if l.isNull = false ∧ start ≤ c then lazyTree start stop l else []).length
        ≤ l.weight := by
      split_ifs
      · exact ihl
      · simp
    omega

theorem pending_root_length (start stop : Int) (ivs : List (Interval T))
    (l r : IntervalTree T) (c : Int) :
    (pending start stop [] ivs l r c 0).length < (node ivs l r c).weight + 1 := by
  simp only [pending, lazyStack, weight, List.length_append, List.append_nil]
  have h0 := List.length_filter_le (fun i : Interval T => stop ≥ i.start ∧ start ≤ i.stop)
    (ivs.drop (0 + 1))
  have hd : (ivs.drop (0 + 1)).length ≤ ivs.length := by simp
  have h1 : (if r.isNull = false ∧ stop ≥ c then lazyTree start stop r else []).length
      ≤ r.weight := by
    split_ifs
    · exact lazyTree_length start stop r
    · simp
  have h2 : (if l.isNull = false ∧ start ≤ c then lazyTree start stop l else []).length
      ≤ l.weight := by
    split_ifs
    · exact lazyTree_length start stop l
    · simp
  omega

/-- Draining a view on a tree with only non-empty buckets returns normally, and yields
the root bucket from index `1` on, then the right and left subtrees as far as `move_next`
enters them, each filtered by the test of `move_next`. -/
theorem drain_eq_pending (x : Interval T) (xs : List (Interval T)) (l r : IntervalTree T)
    (c : Int) (hfull : FullBuckets (node (x :: xs) l r c)) (start stop : Int) :
    drain (node (x :: xs) l r c) start stop =
      .ok (pending start stop [] (x :: xs) l r c 0) := by
  obtain ⟨v1, hv1, _, _, hgood1, hrem1⟩ :=
    moveLoop_remaining ((node (x :: xs) l r c).weight + 1) start stop [] (x :: xs) l r c 0
      (by simp) hfull (fun t ht => by cases ht) (by simp [weight]; omega)
  have hstep : (ctor (node (x :: xs) l r c) start stop).move_next = .ok v1 := by
    simp only [move_next, budget, ctor, List.map_nil, List.sum_nil, Nat.add_zero]
    exact hv1
  have hloop := drainLoop_remaining (pending start stop [] (x :: xs) l r c 0) v1 []
    ((node (x :: xs) l r c).weight + 1) hgood1 hrem1
    (pending_root_length start stop (x :: xs) l r c)
  simp only [drain, hstep]
  simpa using hloop

theorem viewTest_filter (start stop : Int) (l : List (Interval T)) :
    l.filter (fun i => stop ≥ i.start ∧ start ≤ i.stop) =
      l.filter (fun i => i.stop ≥ start ∧ i.start ≤ stop) := by
  apply List.filter_congr
  intro i _
  simp only [decide_eq_decide]
  constructor
  · exact fun h => ⟨h.2, h.1⟩
  · exact fun h => ⟨h.2, h.1⟩

theorem pruned_left_empty (l : IntervalTree T) (c start stop : Int)
    (hrange : ∀ i ∈ flatten l, i.stop < c) (h : ¬ (l.isNull = false ∧ start ≤ c)) :
    (flatten l).filter (fun i => i.stop ≥ start ∧ i.start ≤ stop) = [] := by
  rw [List.filter_eq_nil_iff]
  intro i hi
  have h1 := hrange i hi
  have hc : ¬ start ≤ c := by
    intro hq
    apply h
    refine ⟨?_, hq⟩
    cases l with
    | null => simp [flatten] at hi
    | node _ _ _ _ => rfl
  simp only [decide_eq_true_eq, not_and, not_le]
  intro _
  omega

theorem pruned_right_empty (r : IntervalTree T) (c start stop : Int)
    (hrange : ∀ i ∈ flatten r, i.start > c) (h : ¬ (r.isNull = false ∧ stop ≥ c)) :
    (flatten r).filter (fun i => i.stop ≥ start ∧ i.start ≤ stop) = [] := by
  rw [List.filter_eq_nil_iff]
  intro i hi
  have h1 := hrange i hi
  have hc : ¬ stop ≥ c := by
    intro hq
    apply h
    refine ⟨?_, hq⟩
    cases r with
    | null => simp [flatten] at hi
    | node _ _ _ _ => rfl
  simp only [decide_eq_true_eq, not_and, not_le]
  intro _
  omega

/-- With the child ranges in place, the subtrees that `move_next` does not enter hold no
interval that passes its test: what a drain gives inside a subtree is, as a multiset, the
stored intervals with `stop >= start of the query` and `start <= stop of the query`. -/
theorem lazyTree_perm (start stop : Int) (t : IntervalTree T) :
    ChildRange t →
    (lazyTree start stop t).Perm
      ((flatten t).filter (fun i => i.stop ≥ start ∧ i.start ≤ stop)) := by
  induction t with
  | null => intro _; simp [lazyTree, flatten]
  | node ivs l r c ihl ihr =>
    intro hcr
    obtain ⟨hlr, hrr, hlcr, hrcr⟩ := hcr
    have hr : (if r.isNull = false ∧ stop ≥ c then lazyTree start stop r else []).Perm
        ((flatten r).filter (fun i => i.stop ≥ start ∧ i.start ≤ stop)) := by
      by_cases h : r.isNull = false ∧ stop ≥ c
      · rw [if_pos h]; exact ihr hrcr
      · rw [if_neg h, pruned_right_empty r c start stop hrr h]
    have hl : (if l.isNull = false ∧ start ≤ c then lazyTree start stop l else []).Perm
        ((flatten l).filter (fun i => i.stop ≥ start ∧ i.start ≤ stop)) := by
      by_cases h : l.isNull = false ∧ start ≤ c
      · rw [if_pos h]; exact ihl hlcr
      · rw [if_neg h, pruned_left_empty l c start stop hlr h]
    simp only [lazyTree, flatten, List.filter_append, viewTest_filter, List.append_assoc]
    exact List.Perm.append (List.Perm.refl _)
      (List.Perm.trans List.perm_append_comm (List.Perm.append hl hr))

theorem pending_root_perm (start stop : Int) (x : Interval T) (xs : List (Interval T))
    (l r : IntervalTree T) (c : Int) (hcr : ChildRange (node (x :: xs) l r c)) :
    (pending start stop [] (x :: xs) l r c 0).Perm
      ((xs ++ flatten l ++ flatten r).filter (fun i => i.stop ≥ start ∧ i.start ≤ stop)) := by
  obtain ⟨hlr, hrr, hlcr, hrcr⟩ := hcr
  have hr : (if r.isNull = false ∧ stop ≥ c then lazyTree start stop r else []).Perm
      ((flatten r).filter (fun i => i.stop ≥ start ∧ i.start ≤ stop)) := by
    by_cases h : r.isNull = false ∧ stop ≥ c
    · rw [if_pos h]; exact lazyTree_perm start stop r hrcr
    · rw [if_neg h, pruned_right_empty r c start stop hrr h]
  have hl : (if l.isNull = false ∧ start ≤ c then lazyTree start stop l else []).Perm
      ((flatten l).filter (fun i => i.stop ≥ start ∧ i.start ≤ stop)) := by
    by_cases h : l.isNull = false ∧ start ≤ c
    · rw [if_pos h]; exact lazyTree_perm start stop l hlcr
    · rw [if_neg h, pruned_left_empty l c start stop hlr h]
  simp only [pending, lazyStack, List.append_nil, List.drop_succ_cons, List.drop_zero,
    List.filter_append, viewTest_filter, List.append_assoc]
  exact List.Perm.append (List.Perm.refl _)
    (List.Perm.trans List.perm_append_comm (List.Perm.append hl hr))

end IntervalTreeView

namespace IntervalTree

variable {T : Type}

/-- On a non-empty input of intervals with `start <= stop`, every node of the tree the
constructor body returns has a non-empty bucket: a node that keeps its input holds all of
it, and a node that splits holds at least the middle interval. -/
theorem fullBuckets_ctorBody (srt : List (Interval T) → List (Interval T))
    (hsrt : IsStartSort srt) (d : Nat) (ivals : List (Interval T)) (minbucket : Nat)
    (leftextent rightextent : Int) (maxbucket : Nat) (hne : ivals ≠ [])
    (hwf : ∀ i ∈ ivals, i.start ≤ i.stop) :
    ∃ t, ctorBody srt d ivals minbucket leftextent rightextent maxbucket = some t ∧
      FullBuckets t := by
  obtain ⟨t, ht, _, _, hP⟩ := ctorBody_induct srt hsrt
    (fun _ ivals _ _ t => (∀ i ∈ ivals, i.start ≤ i.stop) → FullBuckets t)
    (by
      intro d ivals minbucket maxbucket hne _ _
      exact ⟨hne, trivial, trivial⟩)
    (by
      intro d ivals minbucket maxbucket sorted mid l r _ hperm hmem _ hlnull hlP _ hrnull hrP
        hwf
      have hwfs : ∀ i ∈ sorted, i.start ≤ i.stop :=
        fun i hi => hwf i ((List.Perm.mem_iff hperm).mp hi)
      refine ⟨?_, ?_, ?_⟩
      · have hmid : mid ∈ bucket mid.start sorted := by
          have := hwfs mid hmem
          simp only [bucket, List.mem_filter, decide_eq_true_eq]
          exact ⟨hmem, by omega, by omega⟩
        exact List.ne_nil_of_mem hmid
      · by_cases h : lefts mid.start sorted = []
        · rw [eq_null_of_isNull l (hlnull.mpr h)]; trivial
        · exact hlP h (fun i hi => hwfs i (List.mem_filter.mp hi).1)
      · by_cases h : rights mid.start sorted = []
        · rw [eq_null_of_isNull r (hrnull.mpr h)]; trivial
        · exact hrP h (fun i hi => hwfs i (List.mem_filter.mp hi).1))
    d ivals minbucket leftextent rightextent maxbucket hne
  exact ⟨t, ht, hP hwf⟩

end IntervalTree

namespace IntervalTreeView

open IntervalTree

variable {T : Type}

/-- C14: for a non-empty input of intervals with `start <= stop`, whatever the other
arguments, the constructor returns a tree with a non-empty root bucket, and the intervals
on which the successive calls of `move_next()` stop, from the freshly constructed view
until `at_end()`, are as a multiset exactly the stored intervals with
`stop >= start of the query` and `start <= stop of the query`, the entry at index `0` of
the root bucket left aside. -/
theorem drain_all_but_first (srt : List (Interval T) → List (Interval T))
    (hsrt : IsStartSort srt) (ivals : List (Interval T)) (hne : ivals ≠ [])
    (hwf : ∀ i ∈ ivals, i.start ≤ i.stop) (depth minbucket : Nat)
    (leftextent rightextent : Int) (maxbucket : Nat) (start stop : Int) :
    ∃ x xs l r c,
      IntervalTree.ctor srt ivals depth minbucket leftextent rightextent maxbucket =
        some (node (x :: xs) l r c) ∧
      ∃ out, drain (node (x :: xs) l r c) start stop = .ok out ∧
        out.Perm
          ((xs ++ flatten l ++ flatten r).filter
            (fun i => i.stop ≥ start ∧ i.start ≤ stop)) := by
  unfold IntervalTree.ctor
  generalize (depth + UINT_MOD - 1) % UINT_MOD = d
  obtain ⟨t, ht, hfull⟩ := fullBuckets_ctorBody srt hsrt d ivals minbucket leftextent
    rightextent maxbucket hne hwf
  obtain ⟨t1, ht1, hnn, _, hcr, _⟩ := ctorBody_spec srt hsrt d ivals minbucket leftextent
    rightextent maxbucket hne
  rw [ht] at ht1
  cases ht1
  cases t with
  | null => simp [isNull] at hnn
  | node ivs l r c =>
    cases ivs with
    | nil => exact absurd rfl hfull.1
    | cons x xs =>
      exact ⟨x, xs, l, r, c, ht, _, drain_eq_pending x xs l r c hfull start stop,
        pending_root_perm start stop x xs l r c hcr⟩

theorem drain_all_but_first_witness :
    IsStartSort (sortByStart : List (Interval String) → List (Interval String)) ∧
    [(⟨1, 5, "a"⟩ : Interval String), ⟨6, 10, "b"⟩, ⟨3, 8, "c"⟩] ≠ [] ∧
    (∀ i ∈ [(⟨1, 5, "a"⟩ : Interval String), ⟨6, 10, "b"⟩, ⟨3, 8, "c"⟩], i.start ≤ i.stop) ∧
    ∃ x xs l r c,
      IntervalTree.ctor sortByStart
        [(⟨1, 5, "a"⟩ : Interval String), ⟨6, 10, "b"⟩, ⟨3, 8, "c"⟩] 16 0 0 0 512 =
        some (node (x :: xs) l r c) ∧
      ∃ out, drain (node (x :: xs) l r c) 4 7 = .ok out ∧
        out.Perm
          ((xs ++ flatten l ++ flatten r).filter (fun i => i.stop ≥ 4 ∧ i.start ≤ 7)) :=
  ⟨sortByStart_isStartSort, by simp, by decide,
    drain_all_but_first sortByStart sortByStart_isStartSort _ (by simp) (by decide)
      16 0 0 0 512 4 7⟩

end IntervalTreeView

end IntervalTreeH
